import Mathlib

set_option maxRecDepth 20000

/-!
Verification model of the certstream-experiments ingestion core:
the JSON record codec (Python `json.dumps` / `json.loads` as used on the
storage paths), the two storage backends (`SQLiteCertificateStore`,
`RocksDBCertificateStore`) and the collector loop
(`CertStreamCollector.connect_and_store`).

Modelling conventions:
* Python values that can appear in a certificate payload are modelled by
  `JValue`.  Numbers are modelled as integers (the payloads the pipeline
  builds contain only integral numbers); `JValue.nonjson` models a Python
  object that `json.dumps` cannot serialize (it raises `TypeError`, which
  the stores catch).
* Byte strings are modelled as `String` / `List Char`: every key and value
  the program writes is UTF-8 text, and UTF-8 byte order coincides with
  code-point order, so RocksDB's byte-ordered iteration is String order.
* `CURRENT_TIMESTAMP` is modelled by an explicit `now : Nat` argument to
  each write.
* Logging is not modelled; it has no effect on state or results.
-/

namespace Certstream

/-- Left curly bracket, kept out of literals. -/
def lbrace : Char := Char.ofNat 123

/-- Right curly bracket, kept out of literals. -/
def rbrace : Char := Char.ofNat 125

/-- Model of a Python value that may be handed to the storage layer.
Mappings are association lists in insertion order (Python `dict` preserves
insertion order); `nonjson n` stands for a non-JSON-serializable object. -/
inductive JValue where
  | null : JValue
  | bool : Bool → JValue
  | num : Int → JValue
  | str : String → JValue
  | arr : List JValue → JValue
  | obj : List (String × JValue) → JValue
  | nonjson : Nat → JValue

mutual

/-- Structural equality test on values; nested lists force a hand-written
mutual recursion in place of a derived instance. -/
def jbeq : JValue → JValue → Bool
  | .null, .null => true
  | .bool a, .bool b => a == b
  | .num a, .num b => a == b
  | .str a, .str b => a == b
  | .arr a, .arr b => jbeqList a b
  | .obj a, .obj b => jbeqMembers a b
  | .nonjson a, .nonjson b => a == b
  | _, _ => false

/-- List version of `jbeq`. -/
def jbeqList : List JValue → List JValue → Bool
  | [], [] => true
  | x :: xs, y :: ys => jbeq x y && jbeqList xs ys
  | _, _ => false

/-- Member-list version of `jbeq`. -/
def jbeqMembers : List (String × JValue) → List (String × JValue) → Bool
  | [], [] => true
  | (k, v) :: xs, (l, w) :: ys => k == l && jbeq v w && jbeqMembers xs ys
  | _, _ => false

end

mutual

theorem jbeq_iff_eq : ∀ a b : JValue, jbeq a b = true ↔ a = b
  | .null, .null => by simp [jbeq]
  | .bool _, .bool _ => by simp [jbeq]
  | .num _, .num _ => by simp [jbeq]
  | .str _, .str _ => by simp [jbeq]
  | .arr x, .arr y => by simp [jbeq, jbeqList_iff_eq x y]
  | .obj x, .obj y => by simp [jbeq, jbeqMembers_iff_eq x y]
  | .nonjson _, .nonjson _ => by simp [jbeq]
  | .null, .bool _ | .null, .num _ | .null, .str _ | .null, .arr _ | .null, .obj _
  | .null, .nonjson _ | .bool _, .null | .bool _, .num _ | .bool _, .str _
  | .bool _, .arr _ | .bool _, .obj _ | .bool _, .nonjson _ | .num _, .null
  | .num _, .bool _ | .num _, .str _ | .num _, .arr _ | .num _, .obj _
  | .num _, .nonjson _ | .str _, .null | .str _, .bool _ | .str _, .num _
  | .str _, .arr _ | .str _, .obj _ | .str _, .nonjson _ | .arr _, .null
  | .arr _, .bool _ | .arr _, .num _ | .arr _, .str _ | .arr _, .obj _
  | .arr _, .nonjson _ | .obj _, .null | .obj _, .bool _ | .obj _, .num _
  | .obj _, .str _ | .obj _, .arr _ | .obj _, .nonjson _ | .nonjson _, .null
  | .nonjson _, .bool _ | .nonjson _, .num _ | .nonjson _, .str _
  | .nonjson _, .arr _ | .nonjson _, .obj _ => by simp [jbeq]

theorem jbeqList_iff_eq : ∀ xs ys : List JValue, jbeqList xs ys = true ↔ xs = ys
  | [], [] => by simp [jbeqList]
  | x :: xs, y :: ys => by simp [jbeqList, jbeq_iff_eq x y, jbeqList_iff_eq xs ys]
  | [], _ :: _ => by simp [jbeqList]
  | _ :: _, [] => by simp [jbeqList]

theorem jbeqMembers_iff_eq :
    ∀ xs ys : List (String × JValue), jbeqMembers xs ys = true ↔ xs = ys
  | [], [] => by simp [jbeqMembers]
  | (k, v) :: xs, (l, w) :: ys => by
    simp [jbeqMembers, jbeq_iff_eq v w, jbeqMembers_iff_eq xs ys, and_assoc]
  | [], _ :: _ => by simp [jbeqMembers]
  | _ :: _, [] => by simp [jbeqMembers]

end

instance : DecidableEq JValue := fun a b => decidable_of_iff _ (jbeq_iff_eq a b)

mutual

/-- Whether a value contains a non-serializable object anywhere, which is
exactly when `json.dumps` raises `TypeError`. -/
def hasNonjson : JValue → Bool
  | .null => false
  | .bool _ => false
  | .num _ => false
  | .str _ => false
  | .arr xs => hasNonjsonList xs
  | .obj kvs => hasNonjsonMembers kvs
  | .nonjson _ => true

/-- List version of `hasNonjson`. -/
def hasNonjsonList : List JValue → Bool
  | [] => false
  | x :: xs => hasNonjson x || hasNonjsonList xs

/-- Member-list version of `hasNonjson`. -/
def hasNonjsonMembers : List (String × JValue) → Bool
  | [] => false
  | kv :: kvs => hasNonjson kv.2 || hasNonjsonMembers kvs

end

/-- Whether the keys of one association list are pairwise distinct, as the
keys of a Python `dict` always are. -/
def noDupKeys : List (String × JValue) → Bool
  | [] => true
  | (k, _) :: kvs => !(kvs.any (fun p => p.1 = k)) && noDupKeys kvs

mutual

/-- Whether a value is the image of a serializable Python payload: it has no
non-serializable part and every mapping in it has distinct keys. -/
def wf : JValue → Bool
  | .null => true
  | .bool _ => true
  | .num _ => true
  | .str _ => true
  | .arr xs => wfList xs
  | .obj kvs => noDupKeys kvs && wfMembers kvs
  | .nonjson _ => false

/-- List version of `wf`. -/
def wfList : List JValue → Bool
  | [] => true
  | x :: xs => wf x && wfList xs

/-- Member-list version of `wf`. -/
def wfMembers : List (String × JValue) → Bool
  | [] => true
  | kv :: kvs => wf kv.2 && wfMembers kvs

end

/-! ## Encoder: `json.dumps` with its default arguments
(`ensure_ascii=True`, separators `", "` and `": "`). -/

/-- Lower-case hexadecimal digit, as `"%04x" % n` produces. -/
def hexDigitChar (n : Nat) : Char :=
  if n < 10 then Char.ofNat (48 + n) else Char.ofNat (87 + n)

/-- Four-digit lower-case hexadecimal rendering of `n < 0x10000`. -/
def hex4 (n : Nat) : List Char :=
  [hexDigitChar (n / 4096 % 16), hexDigitChar (n / 256 % 16),
   hexDigitChar (n / 16 % 16), hexDigitChar (n % 16)]

/-- Encoding of one character by `json.dumps(..., ensure_ascii=True)`:
the two-character escapes, printable ASCII verbatim, `\uXXXX` for the rest,
with a surrogate pair for characters beyond the basic multilingual plane. -/
def encodeChar (c : Char) : List Char :=
  if c = '"' then ['\\', '"']
  else if c = '\\' then ['\\', '\\']
  else if c.toNat = 8 then ['\\', 'b']
  else if c.toNat = 9 then ['\\', 't']
  else if c.toNat = 10 then ['\\', 'n']
  else if c.toNat = 12 then ['\\', 'f']
  else if c.toNat = 13 then ['\\', 'r']
  else if 32 ≤ c.toNat ∧ c.toNat ≤ 126 then [c]
  else if c.toNat < 65536 then '\\' :: 'u' :: hex4 c.toNat
  else
    ('\\' :: 'u' :: hex4 (55296 + (c.toNat - 65536) / 1024)) ++
      ('\\' :: 'u' :: hex4 (56320 + (c.toNat - 65536) % 1024))

/-- Encoded body of a string literal (no surrounding quotes). -/
def encodeBody (s : List Char) : List Char := s.flatMap encodeChar

/-- Encoded string literal, quotes included. -/
def encodeString (s : String) : List Char :=
  '"' :: encodeBody s.data ++ ['"']

/-- Decimal digit character. -/
def digitChar (n : Nat) : Char := Char.ofNat (48 + n)

/-- Decimal digits of `n`, least significant first, empty for zero. -/
def natDigitsRev (n : Nat) : List Char :=
  if h : n = 0 then [] else digitChar (n % 10) :: natDigitsRev (n / 10)
decreasing_by exact Nat.div_lt_self (Nat.pos_of_ne_zero h) (by norm_num)

/-- Decimal rendering of a natural number, as `str` gives it. -/
def natDecimal (n : Nat) : List Char :=
  if n = 0 then ['0'] else (natDigitsRev n).reverse

/-- Decimal rendering of an integer, as `str` gives it. -/
def intDecimal (i : Int) : List Char :=
  if i < 0 then '-' :: natDecimal (-i).toNat else natDecimal i.toNat

mutual

/-- Text produced by `json.dumps` for a serializable value.  The default
item separator is a comma followed by a space and the default key separator
a colon followed by a space.  The `nonjson` case is unreachable under the
`hasNonjson` guard in `dumps`. -/
def renderValue : JValue → List Char
  | .null => "null".data
  | .bool true => "true".data
  | .bool false => "false".data
  | .num i => intDecimal i
  | .str s => encodeString s
  | .arr [] => ['[', ']']
  | .arr (x :: xs) => '[' :: (renderValue x ++ renderItemsRest xs) ++ [']']
  | .obj [] => [lbrace, rbrace]
  | .obj (kv :: kvs) => lbrace :: (renderMember kv ++ renderMembersRest kvs) ++ [rbrace]
  | .nonjson _ => []

/-- Rendering of the remaining array items, each preceded by the default
item separator. -/
def renderItemsRest : List JValue → List Char
  | [] => []
  | x :: xs => ',' :: ' ' :: (renderValue x ++ renderItemsRest xs)

/-- Rendering of one object member: encoded key, key separator, value. -/
def renderMember : String × JValue → List Char
  | (k, v) => encodeString k ++ ':' :: ' ' :: renderValue v

/-- Rendering of the remaining object members, each preceded by the default
item separator. -/
def renderMembersRest : List (String × JValue) → List Char
  | [] => []
  | kv :: kvs => ',' :: ' ' :: (renderMember kv ++ renderMembersRest kvs)

end

/-- Model of `json.dumps(data)`: raises (returns `none`) exactly when the
value holds a non-serializable object, otherwise yields the rendered text. -/
def dumps (v : JValue) : Option String :=
  if hasNonjson v then none else some (String.mk (renderValue v))

/-! ## Decoder: `json.loads`
Restricted, like the encoder, to integral numbers; the documents the
program ever decodes successfully are encoder output and the inbound
certstream frames, whose numbers are integral. -/

/-- JSON whitespace accepted between tokens. -/
def isWs (c : Char) : Bool := c = ' ' || c = '\t' || c = '\n' || c = '\r'

/-- Drop leading JSON whitespace. -/
def skipWs : List Char → List Char
  | [] => []
  | c :: rest => if isWs c then skipWs rest else c :: rest

/-- Decimal digit test. -/
def isDigitCh (c : Char) : Bool := 48 ≤ c.toNat && c.toNat ≤ 57

/-- Value of a hexadecimal digit, either case. -/
def hexVal (c : Char) : Option Nat :=
  if 48 ≤ c.toNat ∧ c.toNat ≤ 57 then some (c.toNat - 48)
  else if 97 ≤ c.toNat ∧ c.toNat ≤ 102 then some (c.toNat - 87)
  else if 65 ≤ c.toNat ∧ c.toNat ≤ 70 then some (c.toNat - 55)
  else none

/-- Read exactly four hexadecimal digits, as after `\u`. -/
def parseHex4 : List Char → Option (Nat × List Char)
  | c1 :: c2 :: c3 :: c4 :: rest =>
    match hexVal c1, hexVal c2, hexVal c3, hexVal c4 with
    | some h1, some h2, some h3, some h4 =>
      some (h1 * 4096 + h2 * 256 + h3 * 16 + h4, rest)
    | _, _, _, _ => none
  | _ => none

/-- Character named by a two-character escape, as the scanner's escape
table has it. -/
def unescapeChar (c : Char) : Option Char :=
  if c = '"' then some '"'
  else if c = '\\' then some '\\'
  else if c = '/' then some '/'
  else if c = 'b' then some (Char.ofNat 8)
  else if c = 'f' then some (Char.ofNat 12)
  else if c = 'n' then some (Char.ofNat 10)
  else if c = 'r' then some (Char.ofNat 13)
  else if c = 't' then some (Char.ofNat 9)
  else none

/-- Scan of a string literal body up to its closing quote, following the
strict scanner: raw control characters are rejected, `\uXXXX` escapes are
read with surrogate pairs combined.  A lone surrogate, which no valid text
value can carry, is rejected.  Fuel bounds recursion; one unit per decoded
character suffices. -/
def parseStringBody : Nat → List Char → Option (List Char × List Char)
  | 0, _ => none
  | _ + 1, [] => none
  | fuel + 1, c :: rest =>
    if c = '"' then some ([], rest)
    else if c = '\\' then
      match rest with
      | [] => none
      | e :: rest2 =>
        if e = 'u' then
          match parseHex4 rest2 with
          | none => none
          | some (n, rest3) =>
            if 55296 ≤ n ∧ n < 56320 then
              match rest3 with
              | b1 :: b2 :: rest4 =>
                if b1 = '\\' ∧ b2 = 'u' then
                  match parseHex4 rest4 with
                  | none => none
                  | some (m, rest5) =>
                    if 56320 ≤ m ∧ m < 57344 then
                      (parseStringBody fuel rest5).map
                        (fun p => (Char.ofNat (65536 + (n - 55296) * 1024 + (m - 56320)) :: p.1, p.2))
                    else none
                else none
              | _ => none
            else if 56320 ≤ n ∧ n < 57344 then none
            else (parseStringBody fuel rest3).map (fun p => (Char.ofNat n :: p.1, p.2))
        else
          match unescapeChar e with
          | some u => (parseStringBody fuel rest2).map (fun p => (u :: p.1, p.2))
          | none => none
    else if c.toNat < 32 then none
    else (parseStringBody fuel rest).map (fun p => (c :: p.1, p.2))

/-- Longest prefix of decimal digits together with the remainder. -/
def takeDigits : List Char → List Char × List Char
  | [] => ([], [])
  | c :: rest =>
    if isDigitCh c then
      let p := takeDigits rest
      (c :: p.1, p.2)
    else ([], c :: rest)

/-- Numeric value of a digit sequence. -/
def digitsToNat (ds : List Char) : Nat :=
  ds.foldl (fun a c => a * 10 + (c.toNat - 48)) 0

/-- Insertion of one parsed member into the object being built, with the
semantics of Python `dict` assignment: a repeated key keeps its original
position and takes the new value, a fresh key is appended. -/
def updOne (kvs : List (String × JValue)) (k : String) (v : JValue) :
    List (String × JValue) :=
  if kvs.any (fun p => p.1 = k) then
    kvs.map (fun p => if p.1 = k then (k, v) else p)
  else kvs ++ [(k, v)]

/-- Folding of the parsed member sequence into a Python `dict`. -/
def collapseMembers (l : List (String × JValue)) : List (String × JValue) :=
  l.foldl (fun acc p => updOne acc p.1 p.2) []

mutual

/-- Recursive-descent value parser, as `json.loads` scans a document.
Fuel decreases once per nesting or sequence step; the nested parsers all
receive the predecessor fuel so that the group is structural in it. -/
def parseValue : Nat → List Char → Option (JValue × List Char)
  | 0, _ => none
  | fuel + 1, input =>
    match skipWs input with
    | [] => none
    | c :: rest =>
      if c = '"' then
        (parseStringBody (rest.length + 1) rest).map
          (fun p => (JValue.str (String.mk p.1), p.2))
      else if c = '[' then
        match skipWs rest with
        | c2 :: rest2 =>
          if c2 = ']' then some (.arr [], rest2)
          else
            match parseItems fuel rest with
            | some (vs, r) => some (.arr vs, r)
            | none => none
        | [] => none
      else if c = lbrace then
        match skipWs rest with
        | c2 :: rest2 =>
          if c2 = rbrace then some (.obj [], rest2)
          else
            match parseMembers fuel rest with
            | some (kvs, r) => some (.obj (collapseMembers kvs), r)
            | none => none
        | [] => none
      else if c = 't' then
        match rest with
        | 'r' :: 'u' :: 'e' :: rest2 => some (.bool true, rest2)
        | _ => none
      else if c = 'f' then
        match rest with
        | 'a' :: 'l' :: 's' :: 'e' :: rest2 => some (.bool false, rest2)
        | _ => none
      else if c = 'n' then
        match rest with
        | 'u' :: 'l' :: 'l' :: rest2 => some (.null, rest2)
        | _ => none
      else if c = '-' then
        match takeDigits rest with
        | ([], _) => none
        | (ds, r) => some (.num (-(digitsToNat ds : Int)), r)
      else if isDigitCh c then
        match takeDigits rest with
        | (ds, r) => some (.num (digitsToNat (c :: ds) : Int), r)
      else none

/-- Parse of a nonempty comma-separated item sequence up to and including
the closing bracket. -/
def parseItems : Nat → List Char → Option (List JValue × List Char)
  | 0, _ => none
  | fuel + 1, input =>
    match parseValue fuel input with
    | none => none
    | some (v, r) =>
      match skipWs r with
      | c :: r2 =>
        if c = ',' then
          match parseItems fuel r2 with
          | some (vs, r3) => some (v :: vs, r3)
          | none => none
        else if c = ']' then some ([v], r2)
        else none
      | [] => none

/-- Parse of a nonempty comma-separated member sequence up to and
including the closing bracket, keeping the members in scan order. -/
def parseMembers : Nat → List Char → Option (List (String × JValue) × List Char)
  | 0, _ => none
  | fuel + 1, input =>
    match skipWs input with
    | c :: rest =>
      if c = '"' then
        match parseStringBody (rest.length + 1) rest with
        | none => none
        | some (k, r) =>
          match skipWs r with
          | c2 :: r2 =>
            if c2 = ':' then
              match parseValue fuel r2 with
              | none => none
              | some (v, r3) =>
                match skipWs r3 with
                | c3 :: r4 =>
                  if c3 = ',' then
                    match parseMembers fuel r4 with
                    | some (kvs, r5) => some ((String.mk k, v) :: kvs, r5)
                    | none => none
                  else if c3 = rbrace then some ([(String.mk k, v)], r4)
                  else none
                | [] => none
            else none
          | [] => none
      else none
    | [] => none

end

/-- Model of `json.loads(s)`: parse one value, demand that only whitespace
follows, return `none` where the Python call raises `JSONDecodeError`. -/
def loads (s : String) : Option JValue :=
  match parseValue (s.length + 1) s.data with
  | some (v, rest) => if skipWs rest = [] then some v else none
  | none => none

/-! ## SQLiteCertificateStore -/

/-- Row of the `certificates` table. -/
structure SQLRow where
  data_json : String
  created_at : Nat
  updated_at : Nat
deriving DecidableEq

/-- The `certificates` table: at most one row per primary-key `domain`,
modelled as an association list. -/
abbrev SQLiteDB := List (String × SQLRow)

/-- Point lookup by primary key, as `SELECT ... WHERE domain = ?` with
`fetchone`. -/
def sqlLookup (db : SQLiteDB) (domain : String) : Option SQLRow :=
  (db.find? (fun p => p.1 = domain)).map (fun p => p.2)

/-- Semantics of `INSERT OR REPLACE INTO certificates (domain, data,
updated_at) VALUES (?, ?, CURRENT_TIMESTAMP)`: a conflicting row is
deleted and a fresh row inserted, so the unassigned `created_at` column
takes its default `CURRENT_TIMESTAMP` again. -/
def sqlInsertOrReplace (db : SQLiteDB) (domain : String) (dataJson : String)
    (now : Nat) : SQLiteDB :=
  (domain, ⟨dataJson, now, now⟩) :: db.filter (fun p => ¬ p.1 = domain)

namespace SQLiteCertificateStore

/-- Model of `SQLiteCertificateStore.store_certificate`: serialize with
`json.dumps` and write with a single INSERT OR REPLACE; any raised error
is caught and turned into a `False` return with the table unchanged. -/
def store_certificate (db : SQLiteDB) (domain : String) (data : JValue)
    (now : Nat) : SQLiteDB × Bool :=
  match dumps data with
  | none => (db, false)
  | some j => (sqlInsertOrReplace db domain j now, true)

/-- Model of `SQLiteCertificateStore.get_certificate`: point lookup then
`json.loads`; a missing row, or any raised error such as a decode failure,
yields `None`. -/
def get_certificate (db : SQLiteDB) (domain : String) : Option JValue :=
  match sqlLookup db domain with
  | none => none
  | some row => loads row.data_json

/-- Record shape returned by `get_all_certificates`. -/
structure CertRecord where
  domain : String
  data : JValue
  created_at : Nat
  updated_at : Nat
deriving DecidableEq

/-- Insertion of a row into a list sorted by `updated_at` descending. -/
def insertByUpdated (r : String × SQLRow) :
    List (String × SQLRow) → List (String × SQLRow)
  | [] => [r]
  | x :: xs =>
    if x.2.updated_at ≤ r.2.updated_at then r :: x :: xs
    else x :: insertByUpdated r xs

/-- Sort by `updated_at` descending, modelling `ORDER BY updated_at DESC`
(the order among equal timestamps is unspecified by SQL; insertion sort
fixes one). -/
def sortByUpdated : List (String × SQLRow) → List (String × SQLRow)
  | [] => []
  | x :: xs => insertByUpdated x (sortByUpdated xs)

/-- Model of `SQLiteCertificateStore.get_all_certificates`: the limited,
recency-ordered rows; a `json.loads` failure on any selected row raises out
of the list comprehension, is caught, and an empty list is returned. -/
def get_all_certificates (db : SQLiteDB) (limit : Nat) : List CertRecord :=
  let rows := (sortByUpdated db).take limit
  if rows.all (fun r => (loads r.2.data_json).isSome) then
    rows.filterMap (fun r =>
      (loads r.2.data_json).map (fun v => ⟨r.1, v, r.2.created_at, r.2.updated_at⟩))
  else []

end SQLiteCertificateStore

/-! ## RocksDBCertificateStore -/

/-- Flat keyspace of the RocksDB store: one value per key.  Keys are the
UTF-8 bytes of the domain and values the UTF-8 bytes of the JSON text,
both modelled as the strings they decode to. -/
abbrev RocksKV := List (String × String)

/-- Point lookup, as `db.get(key)`. -/
def kvGet (kv : RocksKV) (k : String) : Option String :=
  (kv.find? (fun p => p.1 = k)).map (fun p => p.2)

/-- Single-key put, as `db.put(key, value)`: the prior value for the key,
if any, is replaced. -/
def kvPut (kv : RocksKV) (k v : String) : RocksKV :=
  (k, v) :: kv.filter (fun p => ¬ p.1 = k)

namespace RocksDBCertificateStore

/-- Model of `RocksDBCertificateStore.store_certificate`: `False` with no
write if `self.db` is still `None`, `False` with no write if `json.dumps`
raises, otherwise a single put and `True`. -/
def store_certificate (db : Option RocksKV) (domain : String) (data : JValue) :
    Option RocksKV × Bool :=
  match db with
  | none => (none, false)
  | some kv =>
    match dumps data with
    | none => (some kv, false)
    | some j => (some (kvPut kv domain j), true)

/-- Model of `RocksDBCertificateStore.get_certificate`: `None` on an
uninitialized handle, a missing key, a falsy (empty) stored value — the
code tests `if result:` — or a `json.loads` failure. -/
def get_certificate (db : Option RocksKV) (domain : String) : Option JValue :=
  match db with
  | none => none
  | some kv =>
    match kvGet kv domain with
    | none => none
    | some v => if v = "" then none else loads v

/-- Sorted-key insertion; RocksDB iterates keys in ascending byte order,
which on UTF-8 text is ascending string order. -/
def insertByKey (r : String × String) : List (String × String) → List (String × String)
  | [] => [r]
  | x :: xs => if r.1 ≤ x.1 then r :: x :: xs else x :: insertByKey r xs

/-- Key-ascending ordering of the store contents, the iteration order of
`iteritems` after `seek_to_first`. -/
def sortByKey : List (String × String) → List (String × String)
  | [] => []
  | x :: xs => insertByKey x (sortByKey xs)

/-- Collection loop of `get_all_certificates`: stop once `limit` records
are kept, skip records whose value fails to decode without counting them. -/
def collectUpTo : List (String × String) → Nat → List (String × JValue)
  | [], _ => []
  | (k, v) :: rest, limit =>
    if limit = 0 then []
    else
      match loads v with
      | some j => (k, j) :: collectUpTo rest (limit - 1)
      | none => collectUpTo rest limit

/-- Model of `RocksDBCertificateStore.get_all_certificates`. -/
def get_all_certificates (db : Option RocksKV) (limit : Nat) :
    List (String × JValue) :=
  match db with
  | none => []
  | some kv => collectUpTo (sortByKey kv) limit

end RocksDBCertificateStore

/-! ## CertStreamCollector.connect_and_store
The receive loop, one step per inbound frame, over the SQLite store that
`main` installs.  A Python-level error inside the handling of one frame is
caught by the loop's `except Exception` and skips the frame. -/

/-- Model of `d.get(k)` / `d.get(k, default)` on a parsed value: the outer
`none` is the `AttributeError` raised when the receiver is not a dict. -/
def dictGet (v : JValue) (k : String) : Option (Option JValue) :=
  match v with
  | .obj kvs => some ((kvs.find? (fun p => p.1 = k)).map (fun p => p.2))
  | _ => none

/-- Variant of `dictGet` with a default value in place of the inner
option, as `d.get(k, default)`. -/
def dictGetD (v : JValue) (k : String) (default_ : JValue) : Option JValue :=
  (dictGet v k).map (fun o => o.getD default_)

/-- Extraction of the iterated domain list.  The model requires
`all_domains` to be a list of strings, which every certstream message
satisfies; any other shape takes the caught-exception path. -/
def asStrList (v : JValue) : Option (List String) :=
  match v with
  | .arr vs => vs.mapM (fun x => match x with | .str s => some s | _ => none)
  | _ => none

/-- Domain list of a parsed `certificate_update` message, following
`data.get("data", \x7b\x7d)`, `.get("leaf_cert", \x7b\x7d)`,
`.get("all_domains", [])`; `none` is the caught-exception path. -/
def domainsOfMsg (data : JValue) : Option (List String) :=
  match dictGetD data "data" (.obj []) with
  | none => none
  | some certData =>
    match dictGetD certData "leaf_cert" (.obj []) with
    | none => none
    | some leafCert =>
      match dictGetD leafCert "all_domains" (.arr []) with
      | none => none
      | some allDomains => asStrList allDomains

/-- Payload dict the collector builds for every domain of one message; it
is the same value for each domain of the message. -/
def payloadOfMsg (data : JValue) : Option JValue :=
  match dictGetD data "data" (.obj []) with
  | none => none
  | some certData =>
    match dictGetD certData "leaf_cert" (.obj []) with
    | none => none
    | some leafCert =>
      match dictGetD leafCert "all_domains" (.arr []) with
      | none => none
      | some allDomains =>
        match dictGetD certData "chain" (.arr []), dictGetD data "source" (.obj []),
          dictGetD data "timestamp" .null with
        | some chain, some source, some timestamp =>
          some (.obj [("domains", allDomains), ("leaf_cert", leafCert),
            ("chain", chain), ("source", source), ("timestamp", timestamp)])
        | _, _, _ => none

/-- Store calls performed for one parsed `certificate_update` message, in
iteration order: one upsert per listed domain, all with the identical
payload. -/
def certUpdateCalls (data : JValue) : Option (List (String × JValue)) :=
  match domainsOfMsg data, payloadOfMsg data with
  | some ds, some p => some (ds.map (fun d => (d, p)))
  | _, _ => none

/-- Sequential execution of the upsert calls against the SQLite store; a
`False` return is logged and ignored, as in the loop. -/
def applyCalls (db : SQLiteDB) (calls : List (String × JValue)) (now : Nat) :
    SQLiteDB :=
  calls.foldl (fun s c => (SQLiteCertificateStore.store_certificate s c.1 c.2 now).1) db

/-- Effect of one parsed message on the store and the processed-updates
counter: a `certificate_update` performs the per-domain upserts and counts,
a `heartbeat` or unknown type does nothing, and an exception inside the
handling (modelled by the `none` cases) skips the message without
counting. -/
def handleParsed (db : SQLiteDB) (count : Nat) (data : JValue) (now : Nat) :
    SQLiteDB × Nat :=
  match dictGet data "message_type" with
  | none => (db, count)
  | some mt =>
    if mt = some (.str "certificate_update") then
      match certUpdateCalls data with
      | none => (db, count)
      | some calls => (applyCalls db calls now, count + 1)
    else (db, count)

/-- Effect of one received frame: `json.loads` it, skipping the frame on
`JSONDecodeError`, then dispatch on `message_type`. -/
def stepFrame (sc : SQLiteDB × Nat) (frame : String) (now : Nat) : SQLiteDB × Nat :=
  match loads frame with
  | none => sc
  | some data => handleParsed sc.1 sc.2 data now

/-- The receive loop over a finite frame sequence, all writes carrying the
same clock reading. -/
def processFrames (now : Nat) (frames : List String) (sc : SQLiteDB × Nat) :
    SQLiteDB × Nat :=
  frames.foldl (fun acc f => stepFrame acc f now) sc

/-- Whether the remainder cannot extend a number token: empty or starting
with a non-digit.  Every rendered context satisfies it. -/
def noDigitHead : List Char → Bool
  | [] => true
  | c :: _ => !isDigitCh c

/-- Whether a token can begin here: the head character is neither
whitespace nor a closing bracket, so dispatch in `parseValue` starts at it. -/
def goodHead : List Char → Bool
  | [] => false
  | c :: _ => !isWs c && !(c = ']') && !(c = rbrace)

/-- Rendering of a nonempty item sequence without a leading separator, the
text between the brackets of a nonempty array. -/
def renderItems : List JValue → List Char
  | [] => []
  | x :: xs => renderValue x ++ renderItemsRest xs

/-- Rendering of a nonempty member sequence without a leading separator. -/
def renderMembers : List (String × JValue) → List Char
  | [] => []
  | kv :: kvs => renderMember kv ++ renderMembersRest kvs

mutual

/-- Fuel needed by `parseValue` on the rendering of a value: one unit per
nesting or sequence step. -/
def cost : JValue → Nat
  | .null => 1
  | .bool _ => 1
  | .num _ => 1
  | .str _ => 1
  | .arr xs => 1 + costItems xs
  | .obj kvs => 1 + costMembers kvs
  | .nonjson _ => 1

/-- Fuel needed by `parseItems`. -/
def costItems : List JValue → Nat
  | [] => 0
  | x :: xs => 1 + max (cost x) (costItems xs)

/-- Fuel needed by `parseMembers`. -/
def costMembers : List (String × JValue) → Nat
  | [] => 0
  | kv :: kvs => 1 + max (cost kv.2) (costMembers kvs)

end

/-- Last successful serialized write for a domain within one call
sequence: the JSON text the final row for that domain carries after the
sequence runs, when some call for it serializes. -/
def lastWrite : List (String × JValue) → String → Option String
  | [], _ => none
  | c :: rest, d =>
    match lastWrite rest d with
    | some j => some j
    | none =>
      if c.1 = d then
        match dumps c.2 with
        | some j => some j
        | none => none
      else none

/-- Store component of the effect of one parsed message; the processed
counter has no influence on it. -/
def applyParsed (db : SQLiteDB) (data : JValue) (now : Nat) : SQLiteDB :=
  (handleParsed db 0 data now).1

/-- Concrete scenario message of the specification. -/
def cmsg : String :=
  "\x7b\"message_type\":\"certificate_update\",\"data\":\x7b\"leaf_cert\":\x7b\"all_domains\":[\"a.example\",\"b.example\"]\x7d,\"chain\":[],\"timestamp\":1700000000\x7d,\"source\":\x7b\"name\":\"test\"\x7d\x7d"

/-- Payload the collector stores for each domain of the concrete scenario
message.  Its timestamp field is null because the collector reads
`timestamp` from the top level of the message while the scenario message
carries it inside `data`. -/
def cpayload : JValue :=
  .obj [("domains", .arr [.str "a.example", .str "b.example"]),
    ("leaf_cert", .obj [("all_domains", .arr [.str "a.example", .str "b.example"])]),
    ("chain", .arr []),
    ("source", .obj [("name", .str "test")]),
    ("timestamp", .null)]

/-! ## Codec lemmas: digits and hexadecimal -/

theorem char_toNat_lt (c : Char) : c.toNat < 1114112 := by
  have h := c.valid
  simp only [Char.toNat]
  rcases h with h | ⟨h1, h2⟩ <;> omega

theorem char_not_surrogate (c : Char) : ¬ (55296 ≤ c.toNat ∧ c.toNat < 57344) := by
  have h := c.valid
  simp only [Char.toNat]
  rcases h with h | ⟨h1, h2⟩ <;> omega

theorem isDigitCh_digitChar {d : Nat} (h : d < 10) :
    isDigitCh (digitChar d) = true := by
  interval_cases d <;> decide

theorem toNat_digitChar {d : Nat} (h : d < 10) : (digitChar d).toNat = 48 + d := by
  interval_cases d <;> decide

theorem natDigitsRev_digits (n : Nat) : ∀ c ∈ natDigitsRev n, isDigitCh c = true := by
  induction n using Nat.strong_induction_on with
  | _ n ih =>
    intro c hc
    rw [natDigitsRev] at hc
    by_cases h : n = 0
    · simp [h] at hc
    · simp only [h, dif_neg, not_false_iff, List.mem_cons] at hc
      rcases hc with rfl | hc
      · exact isDigitCh_digitChar (Nat.mod_lt _ (by norm_num))
      · exact ih (n / 10) (Nat.div_lt_self (Nat.pos_of_ne_zero h) (by norm_num)) c hc

theorem natDecimal_digits (n : Nat) : ∀ c ∈ natDecimal n, isDigitCh c = true := by
  intro c hc
  rw [natDecimal] at hc
  by_cases h : n = 0
  · simp [h] at hc; simp [hc]; decide
  · simp only [h, if_neg, not_false_iff, List.mem_reverse] at hc
    exact natDigitsRev_digits n c hc

theorem natDecimal_ne_nil (n : Nat) : natDecimal n ≠ [] := by
  rw [natDecimal]
  by_cases h : n = 0
  · simp [h]
  · simp only [h, if_neg, not_false_iff, ne_eq, List.reverse_eq_nil_iff]
    rw [natDigitsRev]
    simp [h]

theorem digitsToNat_append (l1 l2 : List Char) :
    digitsToNat (l1 ++ l2) =
      l2.foldl (fun a c => a * 10 + (c.toNat - 48)) (digitsToNat l1) := by
  simp [digitsToNat, List.foldl_append]

theorem foldl_natDigitsRev (n : Nat) : ∀ a : Nat,
    (natDigitsRev n).reverse.foldl (fun a c => a * 10 + (c.toNat - 48)) a =
      a * 10 ^ (natDigitsRev n).length + n := by
  induction n using Nat.strong_induction_on with
  | _ n ih =>
    intro a
    rw [natDigitsRev]
    by_cases h : n = 0
    · simp [h]
    · have hlt : n / 10 < n := Nat.div_lt_self (Nat.pos_of_ne_zero h) (by norm_num)
      simp only [h, dif_neg, not_false_iff, List.reverse_cons, List.foldl_append,
        List.foldl_cons, List.foldl_nil, List.length_cons]
      rw [ih (n / 10) hlt a, toNat_digitChar (Nat.mod_lt _ (by norm_num))]
      have : 48 + n % 10 - 48 = n % 10 := by omega
      rw [this, pow_succ]
      have hdm := Nat.div_add_mod n 10
      ring_nf
      omega

theorem digitsToNat_natDecimal (n : Nat) : digitsToNat (natDecimal n) = n := by
  rw [natDecimal]
  by_cases h : n = 0
  · simp [h]; decide
  · simp only [h, if_neg, not_false_iff, digitsToNat]
    rw [foldl_natDigitsRev n 0]
    simp

theorem takeDigits_of_noDigitHead {l : List Char} (h : noDigitHead l = true) :
    takeDigits l = ([], l) := by
  cases l with
  | nil => rfl
  | cons c rest =>
    simp only [noDigitHead, Bool.not_eq_true'] at h
    simp [takeDigits, h]

theorem takeDigits_append {ds : List Char} {r : List Char}
    (hds : ∀ c ∈ ds, isDigitCh c = true) (hr : noDigitHead r = true) :
    takeDigits (ds ++ r) = (ds, r) := by
  induction ds with
  | nil => simpa using takeDigits_of_noDigitHead hr
  | cons c cs ih =>
    have hc : isDigitCh c = true := hds c (by simp)
    have := ih (fun c hc => hds c (by simp [hc]))
    simp [takeDigits, hc, this]

theorem hexVal_hexDigitChar {d : Nat} (h : d < 16) :
    hexVal (hexDigitChar d) = some d := by
  interval_cases d <;> decide

theorem parseHex4_hex4 {n : Nat} (h : n < 65536) (r : List Char) :
    parseHex4 (hex4 n ++ r) = some (n, r) := by
  have h1 : n / 4096 % 16 < 16 := Nat.mod_lt _ (by norm_num)
  have h2 : n / 256 % 16 < 16 := Nat.mod_lt _ (by norm_num)
  have h3 : n / 16 % 16 < 16 := Nat.mod_lt _ (by norm_num)
  have h4 : n % 16 < 16 := Nat.mod_lt _ (by norm_num)
  simp only [hex4, List.cons_append, List.nil_append, parseHex4,
    hexVal_hexDigitChar h1, hexVal_hexDigitChar h2, hexVal_hexDigitChar h3,
    hexVal_hexDigitChar h4]
  congr 1
  have : n / 4096 % 16 * 4096 + n / 256 % 16 * 256 + n / 16 % 16 * 16 + n % 16 = n := by
    omega
  rw [this]

/-! ## Codec lemmas: string literals -/

theorem encodeChar_ne_nil (c : Char) : encodeChar c ≠ [] := by
  unfold encodeChar
  split_ifs <;> simp

theorem length_le_encodeBody (s : List Char) : s.length ≤ (encodeBody s).length := by
  induction s with
  | nil => simp [encodeBody]
  | cons c cs ih =>
    simp only [encodeBody, List.flatMap_cons, List.length_append, List.length_cons]
    have := encodeChar_ne_nil c
    have h1 : 1 ≤ (encodeChar c).length := by
      cases h : encodeChar c with
      | nil => exact absurd h this
      | cons _ _ => simp
    simp only [encodeBody] at ih
    omega

theorem parseStringBody_encodeChar (c : Char) (f : Nat) (tail s2 r2 : List Char)
    (h : parseStringBody f tail = some (s2, r2)) :
    parseStringBody (f + 1) (encodeChar c ++ tail) = some (c :: s2, r2) := by
by_cases h1 : c = '"'
· subst h1
  rw [show encodeChar '"' = ['\\', '"'] from rfl]
  simp only [List.cons_append, List.nil_append, parseStringBody]
  simp [unescapeChar, h]
by_cases h2 : c = '\\'
· subst h2
  rw [show encodeChar '\\' = ['\\', '\\'] from rfl]
  simp only [List.cons_append, List.nil_append, parseStringBody]
  simp [unescapeChar, h]
by_cases h3 : c.toNat = 8
· have hc : Char.ofNat 8 = c := by rw [← h3, Char.ofNat_toNat]
  have he : encodeChar c = ['\\', 'b'] := by
    unfold encodeChar; rw [if_neg h1, if_neg h2, if_pos h3]
  rw [he]
  simp only [List.cons_append, List.nil_append, parseStringBody]
  simp [unescapeChar, h]
  exact hc
by_cases h4 : c.toNat = 9
· have hc : Char.ofNat 9 = c := by rw [← h4, Char.ofNat_toNat]
  have he : encodeChar c = ['\\', 't'] := by
    unfold encodeChar; rw [if_neg h1, if_neg h2, if_neg h3, if_pos h4]
  rw [he]
  simp only [List.cons_append, List.nil_append, parseStringBody]
  simp [unescapeChar, h]
  exact hc
by_cases h5 : c.toNat = 10
· have hc : Char.ofNat 10 = c := by rw [← h5, Char.ofNat_toNat]
  have he : encodeChar c = ['\\', 'n'] := by
    unfold encodeChar; rw [if_neg h1, if_neg h2, if_neg h3, if_neg h4, if_pos h5]
  rw [he]
  simp only [List.cons_append, List.nil_append, parseStringBody]
  simp [unescapeChar, h]
  exact hc
by_cases h6 : c.toNat = 12
· have hc : Char.ofNat 12 = c := by rw [← h6, Char.ofNat_toNat]
  have he : encodeChar c = ['\\', 'f'] := by
    unfold encodeChar
    rw [if_neg h1, if_neg h2, if_neg h3, if_neg h4, if_neg h5, if_pos h6]
  rw [he]
  simp only [List.cons_append, List.nil_append, parseStringBody]
  simp [unescapeChar, h]
  exact hc
by_cases h7 : c.toNat = 13
· have hc : Char.ofNat 13 = c := by rw [← h7, Char.ofNat_toNat]
  have he : encodeChar c = ['\\', 'r'] := by
    unfold encodeChar
    rw [if_neg h1, if_neg h2, if_neg h3, if_neg h4, if_neg h5, if_neg h6, if_pos h7]
  rw [he]
  simp only [List.cons_append, List.nil_append, parseStringBody]
  simp [unescapeChar, h]
  exact hc
by_cases h8 : 32 ≤ c.toNat ∧ c.toNat ≤ 126
· have he : encodeChar c = [c] := by
    unfold encodeChar
    rw [if_neg h1, if_neg h2, if_neg h3, if_neg h4, if_neg h5, if_neg h6, if_neg h7,
      if_pos h8]
  rw [he]
  simp only [List.cons_append, parseStringBody]
  rw [if_neg h1, if_neg h2, if_neg (by omega : ¬ c.toNat < 32)]
  simp [h]
by_cases h9 : c.toNat < 65536
· -- basic-plane escape
  have hsur := char_not_surrogate c
  have he : encodeChar c = '\\' :: 'u' :: hex4 c.toNat := by
    unfold encodeChar
    rw [if_neg h1, if_neg h2, if_neg h3, if_neg h4, if_neg h5, if_neg h6, if_neg h7,
      if_neg h8, if_pos h9]
  have hna : ¬ (55296 ≤ c.toNat ∧ c.toNat < 56320) := by omega
  have hnb : ¬ (56320 ≤ c.toNat ∧ c.toNat < 57344) := by omega
  rw [he]
  simp only [List.cons_append, List.append_assoc]
  simp [parseStringBody, parseHex4_hex4 h9, hna, hnb, h, Char.ofNat_toNat]
· -- astral plane: surrogate pair
  have hlt := char_toNat_lt c
  have hge : 65536 ≤ c.toNat := by omega
  have hmod := Nat.mod_lt (c.toNat - 65536) (show 0 < 1024 by norm_num)
  have hhi : 55296 + (c.toNat - 65536) / 1024 < 65536 := by omega
  have hlo : 56320 + (c.toNat - 65536) % 1024 < 65536 := by omega
  have he : encodeChar c =
      ('\\' :: 'u' :: hex4 (55296 + (c.toNat - 65536) / 1024)) ++
        ('\\' :: 'u' :: hex4 (56320 + (c.toNat - 65536) % 1024)) := by
    unfold encodeChar
    rw [if_neg h1, if_neg h2, if_neg h3, if_neg h4, if_neg h5, if_neg h6, if_neg h7,
      if_neg h8, if_neg h9]
  have hp1 : 55296 ≤ 55296 + (c.toNat - 65536) / 1024 ∧
      55296 + (c.toNat - 65536) / 1024 < 56320 := by omega
  have hp2 : 56320 ≤ 56320 + (c.toNat - 65536) % 1024 ∧
      56320 + (c.toNat - 65536) % 1024 < 57344 := by omega
  have harith : 65536 + (55296 + (c.toNat - 65536) / 1024 - 55296) * 1024 +
      (56320 + (c.toNat - 65536) % 1024 - 56320) = c.toNat := by
    have := Nat.div_add_mod (c.toNat - 65536) 1024
    omega
  rw [he]
  simp only [List.cons_append, List.append_assoc]
  rw [parseStringBody.eq_def]
  simp only [show (('\\' : Char) = '"') = False by simp, if_false, if_true]
  simp only [parseHex4_hex4 hhi]
  simp only [if_pos hp1]
  simp only [and_self, if_true]
  simp only [parseHex4_hex4 hlo]
  simp only [if_pos hp2]
  simp only [h, Option.map_some]
  rw [show 65536 + (55296 + (c.toNat - 65536) / 1024 - 55296) * 1024 +
      (56320 + (c.toNat - 65536) % 1024 - 56320) = c.toNat from harith, Char.ofNat_toNat]
  rfl

theorem parseStringBody_encodeBody :
    ∀ (s : List Char) (fuel : Nat) (rest : List Char), s.length + 1 ≤ fuel →
      parseStringBody fuel (encodeBody s ++ '"' :: rest) = some (s, rest) := by
  intro s
  induction s with
  | nil =>
    intro fuel rest hfuel
    obtain ⟨f, rfl⟩ : ∃ f, fuel = f + 1 := ⟨fuel - 1, by omega⟩
    simp [encodeBody, parseStringBody]
  | cons c cs ih =>
    intro fuel rest hfuel
    obtain ⟨f, rfl⟩ : ∃ f, fuel = f + 1 := ⟨fuel - 1, by omega⟩
    have hf : cs.length + 1 ≤ f := by simp at hfuel; omega
    have hsplit : encodeBody (c :: cs) ++ '"' :: rest =
        encodeChar c ++ (encodeBody cs ++ '"' :: rest) := by
      simp [encodeBody, List.flatMap_cons]
    rw [hsplit]
    exact parseStringBody_encodeChar c f _ cs rest (ih f rest hf)

/-! ## Codec lemmas: member collapse, token heads, whitespace -/

theorem updOne_of_not_mem {acc : List (String × JValue)} {k : String} {v : JValue}
    (h : acc.any (fun p => p.1 = k) = false) : updOne acc k v = acc ++ [(k, v)] := by
  simp [updOne, h]

theorem foldl_updOne_append (l : List (String × JValue)) :
    ∀ acc : List (String × JValue), noDupKeys l = true →
      (∀ p ∈ l, acc.any (fun q => q.1 = p.1) = false) →
      l.foldl (fun acc p => updOne acc p.1 p.2) acc = acc ++ l := by
  induction l with
  | nil => intro acc _ _; simp
  | cons kv rest ih =>
    intro acc hnd hdisj
    obtain ⟨k, v⟩ := kv
    simp only [noDupKeys, Bool.and_eq_true, Bool.not_eq_true'] at hnd
    simp only [List.foldl_cons]
    rw [updOne_of_not_mem (hdisj (k, v) (by simp))]
    have hstep : ∀ p ∈ rest, (acc ++ [(k, v)]).any (fun q => q.1 = p.1) = false := by
      intro p hp
      rw [List.any_append]
      have h1 : acc.any (fun q => q.1 = p.1) = false := hdisj p (by simp [hp])
      have h2 : List.any [(k, v)] (fun q => q.1 = p.1) = false := by
        simp only [List.any_cons, List.any_nil, Bool.or_false,
          decide_eq_false_iff_not]
        intro hkp
        have h3 := List.any_eq_false.mp hnd.1 p hp
        simp only [decide_eq_true_eq] at h3
        exact h3 hkp.symm
      rw [h1, h2]
      rfl
    rw [ih (acc ++ [(k, v)]) hnd.2 hstep]
    simp

theorem collapseMembers_of_noDupKeys {l : List (String × JValue)}
    (h : noDupKeys l = true) : collapseMembers l = l := by
  have := foldl_updOne_append l [] h (by intro p _; simp)
  simpa [collapseMembers] using this

theorem isDigitCh_facts {c : Char} (h : isDigitCh c = true) :
    isWs c = false ∧ c ≠ ']' ∧ c ≠ rbrace ∧ c ≠ '"' ∧ c ≠ '[' ∧ c ≠ lbrace ∧
      c ≠ 't' ∧ c ≠ 'f' ∧ c ≠ 'n' ∧ c ≠ '-' := by
  simp only [isDigitCh, Bool.and_eq_true, decide_eq_true_eq] at h
  have key : ∀ d : Char, c.toNat ≠ d.toNat → c ≠ d := fun d hne he => hne (by rw [he])
  have hsp : c ≠ ' ' := key ' ' (by rw [show (' ').toNat = 32 from rfl]; omega)
  have htb : c ≠ '\t' := key '\t' (by rw [show ('\t').toNat = 9 from rfl]; omega)
  have hnl : c ≠ '\n' := key '\n' (by rw [show ('\n').toNat = 10 from rfl]; omega)
  have hcr : c ≠ '\r' := key '\r' (by rw [show ('\r').toNat = 13 from rfl]; omega)
  refine ⟨by simp [isWs, hsp, htb, hnl, hcr], ?_, ?_, ?_, ?_, ?_, ?_, ?_, ?_, ?_⟩
  · exact key ']' (by rw [show (']').toNat = 93 from rfl]; omega)
  · exact key rbrace (by rw [show rbrace.toNat = 125 from rfl]; omega)
  · exact key '"' (by rw [show ('"').toNat = 34 from rfl]; omega)
  · exact key '[' (by rw [show ('[').toNat = 91 from rfl]; omega)
  · exact key lbrace (by rw [show lbrace.toNat = 123 from rfl]; omega)
  · exact key 't' (by rw [show ('t').toNat = 116 from rfl]; omega)
  · exact key 'f' (by rw [show ('f').toNat = 102 from rfl]; omega)
  · exact key 'n' (by rw [show ('n').toNat = 110 from rfl]; omega)
  · exact key '-' (by rw [show ('-').toNat = 45 from rfl]; omega)

theorem skipWs_of_goodHead {l : List Char} (h : goodHead l = true) : skipWs l = l := by
  cases l with
  | nil => rfl
  | cons c rest =>
    simp only [goodHead, Bool.and_eq_true, Bool.not_eq_true'] at h
    simp [skipWs, h.1.1]

theorem goodHead_natDecimal (n : Nat) : goodHead (natDecimal n) = true := by
  cases h : natDecimal n with
  | nil => exact absurd h (natDecimal_ne_nil n)
  | cons c rest =>
    have hc : isDigitCh c = true := natDecimal_digits n c (by simp [h])
    obtain ⟨h1, h2, h3, _⟩ := isDigitCh_facts hc
    simp [goodHead, h1, h2, h3]

theorem goodHead_renderValue (v : JValue) (h : wf v = true) :
    goodHead (renderValue v) = true := by
  cases v with
  | null => decide
  | bool b => cases b <;> decide
  | num i =>
    by_cases hi : i < 0
    · simp [renderValue, intDecimal, hi, goodHead]; decide
    · simp only [renderValue, intDecimal, hi, if_neg, not_false_iff]
      exact goodHead_natDecimal i.toNat
  | str s => simp [renderValue, encodeString, goodHead]; decide
  | arr xs => cases xs <;> (simp [renderValue, goodHead]; decide)
  | obj kvs => cases kvs <;> (simp [renderValue, goodHead, renderMember]; decide)
  | nonjson _ => simp [wf] at h

theorem parseValue_drop_space (fuel : Nat) (z : List Char) :
    parseValue fuel (' ' :: z) = parseValue fuel z := by
  cases fuel with
  | zero => rfl
  | succ f =>
    simp only [parseValue]
    have : skipWs (' ' :: z) = skipWs z := by simp [skipWs, isWs]
    rw [this]

theorem parseItems_drop_space (fuel : Nat) (z : List Char) :
    parseItems fuel (' ' :: z) = parseItems fuel z := by
  cases fuel with
  | zero => rfl
  | succ f =>
    simp only [parseItems]
    rw [parseValue_drop_space]

theorem parseMembers_drop_space (fuel : Nat) (z : List Char) :
    parseMembers fuel (' ' :: z) = parseMembers fuel z := by
  cases fuel with
  | zero => rfl
  | succ f =>
    simp only [parseMembers]
    have : skipWs (' ' :: z) = skipWs z := by simp [skipWs, isWs]
    rw [this]

mutual

theorem cost_le_render : ∀ v : JValue, cost v ≤ (renderValue v).length + 1
  | .null => by simp [cost, renderValue]
  | .bool b => by cases b <;> simp [cost, renderValue]
  | .num i => by simp [cost]
  | .str s => by simp [cost, renderValue, encodeString]
  | .arr [] => by simp [cost, costItems, renderValue]
  | .arr (x :: xs) => by
    have h := costItems_le_render (x :: xs) (by simp)
    simp only [cost, renderValue, renderItems, List.length_append,
      List.length_cons] at *
    omega
  | .obj [] => by simp [cost, costMembers, renderValue]
  | .obj (kv :: kvs) => by
    have h := costMembers_le_render (kv :: kvs) (by simp)
    simp only [cost, renderValue, renderMembers, List.length_append,
      List.length_cons] at *
    omega
  | .nonjson _ => by simp [cost, renderValue]

theorem costItems_le_render : ∀ l : List JValue, l ≠ [] →
    costItems l ≤ (renderItems l).length + 2
  | [], h => absurd rfl h
  | [x], _ => by
    have hx := cost_le_render x
    simp only [costItems, renderItems, renderItemsRest, List.append_nil,
      List.length_append]
    omega
  | x :: y :: xs, _ => by
    have hx := cost_le_render x
    have hrest := costItems_le_render (y :: xs) (by simp)
    simp only [costItems, renderItems, renderItemsRest, List.length_append,
      List.length_cons] at *
    omega

theorem costMembers_le_render : ∀ l : List (String × JValue), l ≠ [] →
    costMembers l ≤ (renderMembers l).length + 2
  | [], h => absurd rfl h
  | [(k, v)], _ => by
    have hx := cost_le_render v
    simp only [costMembers, renderMembers, renderMembersRest, List.append_nil,
      renderMember, encodeString, List.length_append, List.length_cons]
    omega
  | (k, v) :: kv2 :: kvs, _ => by
    have hx := cost_le_render v
    have hrest := costMembers_le_render (kv2 :: kvs) (by simp)
    simp only [costMembers, renderMembers, renderMembersRest, renderMember,
      encodeString, List.length_append, List.length_cons] at *
    omega

end

theorem skipWs_cons {c : Char} (h : isWs c = false) (t : List Char) :
    skipWs (c :: t) = c :: t := by
  simp [skipWs, h]

theorem goodHead_dest {l : List Char} (h : goodHead l = true) :
    ∃ c t, l = c :: t ∧ isWs c = false ∧ c ≠ ']' ∧ c ≠ rbrace := by
  cases l with
  | nil => simp [goodHead] at h
  | cons c t =>
    simp only [goodHead, Bool.and_eq_true, Bool.not_eq_true'] at h
    exact ⟨c, t, rfl, h.1.1, by simpa using h.1.2, by simpa using h.2⟩

theorem strmk (s : String) : String.mk s.data = s := rfl

mutual

theorem parseValue_renderValue : ∀ (v : JValue) (fuel : Nat) (rest : List Char),
    wf v = true → cost v ≤ fuel → noDigitHead rest = true →
    parseValue fuel (renderValue v ++ rest) = some (v, rest)
  | .null, fuel, rest => by
    intro _ hc hr
    obtain ⟨f, rfl⟩ : ∃ f, fuel = f + 1 := ⟨fuel - 1, by simp [cost] at hc; omega⟩
    simp only [renderValue, List.cons_append, List.nil_append]
    simp only [parseValue]
    rw [skipWs_cons (by decide)]
    simp [show (('n' : Char) = lbrace) = False by decide]
  | .bool b, fuel, rest => by
    intro _ hc hr
    obtain ⟨f, rfl⟩ : ∃ f, fuel = f + 1 := ⟨fuel - 1, by simp [cost] at hc; omega⟩
    cases b <;>
      (simp only [renderValue, List.cons_append, List.nil_append]
       simp only [parseValue]
       rw [skipWs_cons (by decide)]
       simp [show (('t' : Char) = lbrace) = False by decide,
         show (('f' : Char) = lbrace) = False by decide])
  | .num i, fuel, rest => by
    intro _ hc hr
    obtain ⟨f, rfl⟩ : ∃ f, fuel = f + 1 := ⟨fuel - 1, by simp [cost] at hc; omega⟩
    simp only [renderValue, intDecimal]
    by_cases hi : i < 0
    · simp only [if_pos hi, List.cons_append]
      obtain ⟨d, ds, hds⟩ : ∃ d ds, natDecimal (-i).toNat = d :: ds := by
        cases h : natDecimal (-i).toNat with
        | nil => exact absurd h (natDecimal_ne_nil _)
        | cons d ds => exact ⟨d, ds, rfl⟩
      simp only [parseValue]
      rw [skipWs_cons (by decide)]
      simp only [if_neg (show ¬ (('-' : Char) = '"') by decide),
        if_neg (show ¬ (('-' : Char) = '[') by decide),
        if_neg (show ¬ (('-' : Char) = lbrace) by decide),
        if_neg (show ¬ (('-' : Char) = 't') by decide),
        if_neg (show ¬ (('-' : Char) = 'f') by decide),
        if_neg (show ¬ (('-' : Char) = 'n') by decide),
        if_pos (show ('-' : Char) = '-' from rfl)]
      rw [takeDigits_append (natDecimal_digits ((-i).toNat)) hr, hds]
      have h2 : digitsToNat (d :: ds) = (-i).toNat := by
        rw [← hds, digitsToNat_natDecimal]
      have hni : (((-i).toNat : Int)) = -i := by omega
      simp [h2, hni]
    · simp only [if_neg hi]
      obtain ⟨d, ds, hds⟩ : ∃ d ds, natDecimal i.toNat = d :: ds := by
        cases h : natDecimal i.toNat with
        | nil => exact absurd h (natDecimal_ne_nil _)
        | cons d ds => exact ⟨d, ds, rfl⟩
      have hd : isDigitCh d = true := natDecimal_digits i.toNat d (by simp [hds])
      obtain ⟨hws, _, _, hq, hlb, hlbr, ht, hf2, hn, hm⟩ := isDigitCh_facts hd
      have hdall : ∀ c ∈ ds, isDigitCh c = true := by
        intro c hcm
        exact natDecimal_digits i.toNat c (by simp [hds, hcm])
      rw [hds]
      simp only [List.cons_append]
      simp only [parseValue]
      rw [skipWs_cons hws]
      simp only [if_neg hq, if_neg hlb, if_neg hlbr, if_neg ht, if_neg hf2,
        if_neg hn, if_neg hm, if_pos hd, takeDigits_append hdall hr]
      have h2 : digitsToNat (d :: ds) = i.toNat := by
        rw [← hds, digitsToNat_natDecimal]
      rw [h2]
      have h3 : ((i.toNat : Int)) = i := by omega
      simp [h3]
  | .str s, fuel, rest => by
    intro _ hc hr
    obtain ⟨f, rfl⟩ : ∃ f, fuel = f + 1 := ⟨fuel - 1, by simp [cost] at hc; omega⟩
    simp only [renderValue, encodeString, List.cons_append, List.append_assoc,
      List.singleton_append]
    simp only [parseValue]
    rw [skipWs_cons (by decide)]
    simp only [if_pos (show ('"' : Char) = '"' from rfl), List.nil_append]
    rw [parseStringBody_encodeBody s.data _ rest
      (by
        have h1 := length_le_encodeBody s.data
        simp only [List.length_append, List.length_cons, List.nil_append]
        omega)]
    simp [strmk]
  | .arr [], fuel, rest => by
    intro _ hc hr
    obtain ⟨f, rfl⟩ : ∃ f, fuel = f + 1 := ⟨fuel - 1, by simp [cost] at hc; omega⟩
    simp only [renderValue, List.cons_append, List.nil_append]
    simp only [parseValue]
    rw [skipWs_cons (by decide)]
    simp only [show (('[' : Char) = '"') = False by simp, if_false, if_pos rfl]
    rw [skipWs_cons (by decide)]
    simp
  | .arr (x :: xs), fuel, rest => by
    intro hwf hc hr
    obtain ⟨f, rfl⟩ : ∃ f, fuel = f + 1 := ⟨fuel - 1, by simp [cost] at hc; omega⟩
    have hwx : wf x = true ∧ wfList xs = true := by
      simpa [wf, wfList] using hwf
    have hgh := goodHead_renderValue x hwx.1
    obtain ⟨c0, t0, hx, hws0, hne1, _⟩ := goodHead_dest hgh
    have ht2 := parseItems_renderItems (x :: xs) f rest
      (by simpa [wf] using hwf) (by simp)
      (by simp only [cost] at hc; omega)
    simp only [renderItems, hx, List.cons_append, List.append_assoc,
      List.nil_append] at ht2
    simp only [renderValue, hx, List.cons_append, List.append_assoc,
      List.nil_append]
    simp only [parseValue]
    rw [skipWs_cons (by decide)]
    simp only [show (('[' : Char) = '"') = False by simp, if_false, if_true,
      if_pos (show ('[' : Char) = '[' from rfl)]
    rw [skipWs_cons hws0]
    simp only [if_neg hne1]
    rw [ht2]
  | .obj [], fuel, rest => by
    intro _ hc hr
    obtain ⟨f, rfl⟩ : ∃ f, fuel = f + 1 := ⟨fuel - 1, by simp [cost] at hc; omega⟩
    simp only [renderValue, List.cons_append, List.nil_append]
    simp only [parseValue]
    rw [skipWs_cons (by decide)]
    simp only [show (lbrace = '"') = False by decide, if_false,
      show (lbrace = '[') = False by decide, if_pos rfl]
    rw [skipWs_cons (by decide)]
    simp
  | .obj ((k, v) :: kvs), fuel, rest => by
    intro hwf hc hr
    obtain ⟨f, rfl⟩ : ∃ f, fuel = f + 1 := ⟨fuel - 1, by simp [cost] at hc; omega⟩
    have hnd : noDupKeys ((k, v) :: kvs) = true := by
      simp only [wf, Bool.and_eq_true] at hwf; exact hwf.1
    have ht3 := parseMembers_renderMembers ((k, v) :: kvs) f rest
      (by simp only [wf, Bool.and_eq_true] at hwf; exact hwf.2) (by simp)
      (by simp only [cost] at hc; omega)
    simp only [renderMembers, renderMember, encodeString, List.cons_append,
      List.append_assoc, List.singleton_append, List.nil_append] at ht3
    simp only [renderValue, renderMember, encodeString, List.cons_append,
      List.append_assoc, List.singleton_append, List.nil_append]
    simp only [parseValue]
    rw [skipWs_cons (by decide)]
    simp only [show (lbrace = '"') = False by decide,
      show (lbrace = '[') = False by decide, if_false, if_true]
    rw [skipWs_cons (by decide)]
    simp only [show (('"' : Char) = rbrace) = False by decide, if_false]
    rw [ht3]
    simp only [collapseMembers_of_noDupKeys hnd]
  | .nonjson n, fuel, rest => by
    intro hwf _ _
    simp [wf] at hwf

theorem parseItems_renderItems : ∀ (l : List JValue) (fuel : Nat) (rest : List Char),
    wfList l = true → l ≠ [] → costItems l ≤ fuel →
    parseItems fuel (renderItems l ++ ']' :: rest) = some (l, rest)
  | [], _, _ => by intro _ h _; exact absurd rfl h
  | [x], fuel, rest => by
    intro hwf _ hc
    obtain ⟨f, rfl⟩ : ∃ f, fuel = f + 1 := ⟨fuel - 1, by simp [costItems] at hc; omega⟩
    have hwx : wf x = true := by simpa [wfList] using hwf
    simp only [renderItems, renderItemsRest, List.append_nil, List.append_assoc]
    simp only [parseItems]
    rw [parseValue_renderValue x f (']' :: rest) hwx
      (by simp only [costItems] at hc ⊢; omega) rfl]
    simp only [skipWs_cons (show isWs ']' = false from rfl),
      show ((']' : Char) = ',') = False by decide, if_false, if_true,
      if_pos (show (']' : Char) = ']' from rfl)]
  | x :: y :: ys, fuel, rest => by
    intro hwf _ hc
    obtain ⟨f, rfl⟩ : ∃ f, fuel = f + 1 := ⟨fuel - 1, by simp [costItems] at hc; omega⟩
    have hwx : wf x = true := by
      simp only [wfList, Bool.and_eq_true] at hwf; exact hwf.1
    have hwrest : wfList (y :: ys) = true := by
      simp only [wfList, Bool.and_eq_true] at hwf
      simp [wfList, hwf.2.1, hwf.2.2]
    have ht2 := parseItems_renderItems (y :: ys) f rest hwrest (by simp)
      (by simp only [costItems] at hc ⊢; omega)
    simp only [renderItems, List.append_assoc] at ht2
    simp only [renderItems, renderItemsRest, List.cons_append, List.append_assoc]
    simp only [parseItems]
    rw [parseValue_renderValue x f
      (',' :: ' ' :: (renderValue y ++ (renderItemsRest ys ++ ']' :: rest))) hwx
      (by simp only [costItems] at hc ⊢; omega) rfl]
    simp only [skipWs_cons (show isWs ',' = false from rfl),
      if_pos (show ((',' : Char) = ',') from rfl), if_true]
    rw [parseItems_drop_space, ht2]

theorem parseMembers_renderMembers :
    ∀ (l : List (String × JValue)) (fuel : Nat) (rest : List Char),
    wfMembers l = true → l ≠ [] → costMembers l ≤ fuel →
    parseMembers fuel (renderMembers l ++ rbrace :: rest) = some (l, rest)
  | [], _, _ => by intro _ h _; exact absurd rfl h
  | [(k, v)], fuel, rest => by
    intro hwf _ hc
    obtain ⟨f, rfl⟩ : ∃ f, fuel = f + 1 :=
      ⟨fuel - 1, by simp [costMembers] at hc; omega⟩
    have hwv : wf v = true := by simpa [wfMembers] using hwf
    simp only [renderMembers, renderMember, renderMembersRest, encodeString,
      List.append_nil, List.cons_append, List.append_assoc, List.singleton_append,
      List.nil_append]
    simp only [parseMembers]
    rw [skipWs_cons (show isWs '"' = false from rfl)]
    simp only [if_pos (show ('"' : Char) = '"' from rfl)]
    rw [parseStringBody_encodeBody k.data _ _
      (by
        have h1 := length_le_encodeBody k.data
        simp only [List.length_append, List.length_cons]
        omega)]
    simp only [skipWs_cons (show isWs ':' = false from rfl),
      if_pos (show ((':' : Char) = ':') from rfl)]
    rw [parseValue_drop_space]
    rw [parseValue_renderValue v f (rbrace :: rest) hwv
      (by simp only [costMembers] at hc ⊢; omega) rfl]
    simp only [skipWs_cons (show isWs rbrace = false from rfl),
      show (rbrace = ',') = False by decide, if_false, if_true,
      if_pos (show rbrace = rbrace from rfl), strmk]
  | (k, v) :: kv2 :: kvs, fuel, rest => by
    intro hwf _ hc
    obtain ⟨f, rfl⟩ : ∃ f, fuel = f + 1 :=
      ⟨fuel - 1, by simp [costMembers] at hc; omega⟩
    have hwv : wf v = true := by
      simp only [wfMembers, Bool.and_eq_true] at hwf; exact hwf.1
    have hwrest : wfMembers (kv2 :: kvs) = true := by
      simp only [wfMembers, Bool.and_eq_true] at hwf
      simp [wfMembers, hwf.2.1, hwf.2.2]
    have ht3 := parseMembers_renderMembers (kv2 :: kvs) f rest hwrest (by simp)
      (by simp only [costMembers] at hc ⊢; omega)
    simp only [renderMembers, List.append_assoc] at ht3
    simp only [renderMembers, renderMember, renderMembersRest, encodeString,
      List.cons_append, List.append_assoc, List.singleton_append, List.nil_append]
    simp only [parseMembers]
    rw [skipWs_cons (show isWs '"' = false from rfl)]
    simp only [if_pos (show ('"' : Char) = '"' from rfl)]
    rw [parseStringBody_encodeBody k.data _ _
      (by
        have h1 := length_le_encodeBody k.data
        simp only [List.length_append, List.length_cons]
        omega)]
    simp only [skipWs_cons (show isWs ':' = false from rfl),
      if_pos (show ((':' : Char) = ':') from rfl)]
    rw [parseValue_drop_space]
    rw [parseValue_renderValue v f
      (',' :: ' ' :: (renderMember kv2 ++ (renderMembersRest kvs ++ rbrace :: rest)))
      hwv (by simp only [costMembers] at hc ⊢; omega) rfl]
    simp only [skipWs_cons (show isWs ',' = false from rfl),
      if_pos (show ((',' : Char) = ',') from rfl), if_true]
    rw [parseMembers_drop_space]
    rw [ht3]

end

mutual

theorem wf_hasNonjson : ∀ v : JValue, wf v = true → hasNonjson v = false
  | .null, _ => rfl
  | .bool _, _ => rfl
  | .num _, _ => rfl
  | .str _, _ => rfl
  | .arr xs, h => by
    simp only [hasNonjson]
    exact wfList_hasNonjson xs (by simpa [wf] using h)
  | .obj kvs, h => by
    simp only [hasNonjson]
    exact wfMembers_hasNonjson kvs (by simp only [wf, Bool.and_eq_true] at h; exact h.2)
  | .nonjson _, h => by simp [wf] at h

theorem wfList_hasNonjson : ∀ l : List JValue, wfList l = true → hasNonjsonList l = false
  | [], _ => rfl
  | x :: xs, h => by
    simp only [wfList, Bool.and_eq_true] at h
    simp only [hasNonjsonList, Bool.or_eq_false_iff]
    exact ⟨wf_hasNonjson x h.1, wfList_hasNonjson xs h.2⟩

theorem wfMembers_hasNonjson :
    ∀ l : List (String × JValue), wfMembers l = true → hasNonjsonMembers l = false
  | [], _ => rfl
  | kv :: kvs, h => by
    simp only [wfMembers, Bool.and_eq_true] at h
    simp only [hasNonjsonMembers, Bool.or_eq_false_iff]
    exact ⟨wf_hasNonjson kv.2 h.1, wfMembers_hasNonjson kvs h.2⟩

end

theorem loads_renderValue (v : JValue) (h : wf v = true) :
    loads (String.mk (renderValue v)) = some v := by
  have hfuel : cost v ≤ (renderValue v).length + 1 := cost_le_render v
  have hmain := parseValue_renderValue v ((renderValue v).length + 1) [] h hfuel rfl
  rw [List.append_nil] at hmain
  simp only [loads]
  have hlen : (String.mk (renderValue v)).length = (renderValue v).length := rfl
  rw [hlen, hmain]
  rfl

/-- Round trip of the record codec: decoding composed with encoding is the
identity on serializable payloads. -/
theorem dumps_bind_loads (v : JValue) (h : wf v = true) :
    (dumps v).bind loads = some v := by
  simp only [dumps, wf_hasNonjson v h, Bool.false_eq_true, if_neg, not_false_iff,
    Option.bind_some]
  exact loads_renderValue v h

/-! ## The parser yields serializable values -/

theorem wfMembers_iff_forall (l : List (String × JValue)) :
    wfMembers l = true ↔ ∀ p ∈ l, wf p.2 = true := by
  induction l with
  | nil => simp [wfMembers]
  | cons kv kvs ih =>
    simp only [wfMembers, Bool.and_eq_true, ih, List.mem_cons]
    constructor
    · rintro ⟨h1, h2⟩ p (rfl | hp)
      · exact h1
      · exact h2 p hp
    · intro h
      exact ⟨h kv (Or.inl rfl), fun p hp => h p (Or.inr hp)⟩

theorem wfList_iff_forall (l : List JValue) :
    wfList l = true ↔ ∀ v ∈ l, wf v = true := by
  induction l with
  | nil => simp [wfList]
  | cons x xs ih =>
    simp only [wfList, Bool.and_eq_true, ih, List.mem_cons]
    constructor
    · rintro ⟨h1, h2⟩ v (rfl | hv)
      · exact h1
      · exact h2 v hv
    · intro h
      exact ⟨h x (Or.inl rfl), fun v hv => h v (Or.inr hv)⟩

theorem keys_updOne (acc : List (String × JValue)) (k : String) (v : JValue) :
    (updOne acc k v).map (fun p => p.1) =
      if acc.any (fun p => p.1 = k) then acc.map (fun p => p.1)
      else acc.map (fun p => p.1) ++ [k] := by
  by_cases h : acc.any (fun p => p.1 = k)
  · simp only [updOne, if_pos h, List.map_map]
    rw [List.map_congr_left]
    intro p _
    simp only [Function.comp_apply]
    by_cases hp : p.1 = k
    · simp [hp]
    · simp [hp]
  · simp [updOne, h]

theorem mem_updOne {p : String × JValue} {acc : List (String × JValue)}
    {k : String} {v : JValue} (h : p ∈ updOne acc k v) :
    p ∈ acc ∨ p = (k, v) := by
  by_cases hc : acc.any (fun q => q.1 = k)
  · simp only [updOne, if_pos hc, List.mem_map] at h
    obtain ⟨q, hq, hqe⟩ := h
    by_cases hqk : q.1 = k
    · simp only [if_pos hqk] at hqe
      exact Or.inr hqe.symm
    · simp only [if_neg hqk] at hqe
      exact Or.inl (hqe ▸ hq)
  · simp only [updOne, if_neg hc, List.mem_append, List.mem_singleton] at h
    exact h

theorem noDupKeys_eq_nodup (l : List (String × JValue)) :
    noDupKeys l = true ↔ (l.map (fun p => p.1)).Nodup := by
  induction l with
  | nil => simp [noDupKeys]
  | cons kv kvs ih =>
    obtain ⟨k, v⟩ := kv
    simp only [noDupKeys, Bool.and_eq_true, Bool.not_eq_true', ih, List.map_cons,
      List.nodup_cons, List.mem_map]
    constructor
    · rintro ⟨h1, h2⟩
      refine ⟨?_, h2⟩
      rintro ⟨q, hq, hqe⟩
      have := List.any_eq_false.mp h1 q hq
      simp [hqe] at this
    · rintro ⟨h1, h2⟩
      refine ⟨?_, h2⟩
      rw [List.any_eq_false]
      intro q hq
      simp only [decide_eq_true_eq]
      intro hqe
      exact h1 ⟨q, hq, hqe⟩

theorem noDupKeys_updOne {acc : List (String × JValue)} (k : String) (v : JValue)
    (h : noDupKeys acc = true) : noDupKeys (updOne acc k v) = true := by
  rw [noDupKeys_eq_nodup] at h ⊢
  rw [keys_updOne]
  by_cases hc : acc.any (fun p => p.1 = k)
  · simp [hc, h]
  · simp only [hc, if_false, Bool.false_eq_true]
    rw [List.nodup_append]
    refine ⟨h, List.nodup_singleton k, ?_⟩
    intro a ha
    simp only [List.mem_singleton]
    intro he
    subst he
    simp only [List.mem_map] at ha
    obtain ⟨q, hq, hqe⟩ := ha
    exact absurd (List.any_eq_true.mpr ⟨q, hq, by simp [hqe]⟩) hc

theorem collapse_fold_nodup (l : List (String × JValue)) :
    ∀ acc, noDupKeys acc = true →
      noDupKeys (l.foldl (fun acc p => updOne acc p.1 p.2) acc) = true := by
  induction l with
  | nil => intro acc h; exact h
  | cons kv kvs ih =>
    intro acc h
    exact ih (updOne acc kv.1 kv.2) (noDupKeys_updOne kv.1 kv.2 h)

theorem collapse_fold_mem (l : List (String × JValue)) :
    ∀ acc p, p ∈ l.foldl (fun acc p => updOne acc p.1 p.2) acc →
      p ∈ acc ∨ ∃ q ∈ l, p = q := by
  induction l with
  | nil => intro acc p h; exact Or.inl h
  | cons kv kvs ih =>
    intro acc p h
    rcases ih (updOne acc kv.1 kv.2) p h with h2 | ⟨q, hq, hpe⟩
    · rcases mem_updOne h2 with h3 | h3
      · exact Or.inl h3
      · exact Or.inr ⟨kv, by simp, by simpa using h3⟩
    · exact Or.inr ⟨q, by simp [hq], hpe⟩

theorem noDupKeys_collapseMembers (l : List (String × JValue)) :
    noDupKeys (collapseMembers l) = true :=
  collapse_fold_nodup l [] rfl

theorem wf_obj_collapseMembers {l : List (String × JValue)}
    (h : ∀ p ∈ l, wf p.2 = true) : wf (.obj (collapseMembers l)) = true := by
  simp only [wf, Bool.and_eq_true]
  refine ⟨noDupKeys_collapseMembers l, ?_⟩
  rw [wfMembers_iff_forall]
  intro p hp
  rcases collapse_fold_mem l [] p hp with h2 | ⟨q, hq, hpe⟩
  · simp at h2
  · rw [hpe]; exact h q hq

theorem parse_wf_all : ∀ fuel : Nat,
    (∀ input v rest, parseValue fuel input = some (v, rest) → wf v = true) ∧
    (∀ input l rest, parseItems fuel input = some (l, rest) → wfList l = true) ∧
    (∀ input kvs rest, parseMembers fuel input = some (kvs, rest) →
      ∀ p ∈ kvs, wf p.2 = true) := by
  intro fuel
  induction fuel with
  | zero =>
    refine ⟨?_, ?_, ?_⟩
    · intro input v rest h; exact absurd h (by simp [parseValue])
    · intro input l rest h; exact absurd h (by simp [parseItems])
    · intro input kvs rest h; exact absurd h (by simp [parseMembers])
  | succ f ih =>
    obtain ⟨ihv, ihi, ihm⟩ := ih
    refine ⟨?_, ?_, ?_⟩
    · intro input v rest h
      simp only [parseValue] at h
      split at h
      · exact absurd h (by simp)
      · split_ifs at h with h1 h2 h3 h4 h5 h6 h7 h8
        · -- string literal
          cases hsb : parseStringBody _ _ with
          | none => rw [hsb] at h; simp at h
          | some p =>
            rw [hsb] at h
            simp at h
            rw [← h.1]
            rfl
        · -- array
          split at h
          · split_ifs at h with hb
            · simp only [Option.some.injEq, Prod.mk.injEq] at h
              rw [← h.1]; rfl
            · split at h
              · simp only [Option.some.injEq, Prod.mk.injEq] at h
                rw [← h.1]
                simp only [wf]
                next vs r heq => exact ihi _ vs r heq
              · exact absurd h (by simp)
          · exact absurd h (by simp)
        · -- object
          split at h
          · split_ifs at h with hb
            · simp only [Option.some.injEq, Prod.mk.injEq] at h
              rw [← h.1]; rfl
            · split at h
              · simp only [Option.some.injEq, Prod.mk.injEq] at h
                rw [← h.1]
                next kvs r heq => exact wf_obj_collapseMembers (ihm _ kvs r heq)
              · exact absurd h (by simp)
          · exact absurd h (by simp)
        · -- true literal
          split at h
          · simp only [Option.some.injEq, Prod.mk.injEq] at h
            rw [← h.1]; rfl
          · exact absurd h (by simp)
        · -- false literal
          split at h
          · simp only [Option.some.injEq, Prod.mk.injEq] at h
            rw [← h.1]; rfl
          · exact absurd h (by simp)
        · -- null literal
          split at h
          · simp only [Option.some.injEq, Prod.mk.injEq] at h
            rw [← h.1]; rfl
          · exact absurd h (by simp)
        · -- negative number
          split at h
          · exact absurd h (by simp)
          · simp only [Option.some.injEq, Prod.mk.injEq] at h
            rw [← h.1]; rfl
        · -- nonnegative number
          simp only [Option.some.injEq, Prod.mk.injEq] at h
          rw [← h.1]; rfl
    · intro input l rest h
      simp only [parseItems] at h
      split at h
      · exact absurd h (by simp)
      · next v r heqv =>
        split at h
        · split_ifs at h with hcm
          · split at h
            · next vs r3 heqi =>
              simp only [Option.some.injEq, Prod.mk.injEq] at h
              rw [← h.1]
              simp only [wfList, Bool.and_eq_true]
              exact ⟨ihv _ v r heqv, ihi _ vs r3 heqi⟩
            · exact absurd h (by simp)
          · simp only [Option.some.injEq, Prod.mk.injEq] at h
            rw [← h.1]
            simp only [wfList, Bool.and_eq_true]
            exact ⟨ihv _ v r heqv, trivial⟩
        · exact absurd h (by simp)
    · intro input kvs rest h
      simp only [parseMembers] at h
      split at h
      · split_ifs at h with h1
        · split at h
          · exact absurd h (by simp)
          · next k r heqs =>
            split at h
            · split_ifs at h with h2
              · split at h
                · exact absurd h (by simp)
                · next v r3 heqv =>
                  split at h
                  · split_ifs at h with h3
                    · split at h
                      · next kvs2 r5 heqm =>
                        simp only [Option.some.injEq, Prod.mk.injEq] at h
                        rw [← h.1]
                        intro p hp
                        rcases List.mem_cons.mp hp with rfl | hp2
                        · exact ihv _ v r3 heqv
                        · exact ihm _ kvs2 r5 heqm p hp2
                      · exact absurd h (by simp)
                    · simp only [Option.some.injEq, Prod.mk.injEq] at h
                      rw [← h.1]
                      intro p hp
                      rcases List.mem_cons.mp hp with rfl | hp2
                      · exact ihv _ v r3 heqv
                      · simp at hp2
                  · exact absurd h (by simp)
            · exact absurd h (by simp)
      · exact absurd h (by simp)

/-- Values produced by `loads` are serializable payloads: nothing in them
is a non-JSON object and every mapping has distinct keys. -/
theorem loads_wf {s : String} {v : JValue} (h : loads s = some v) : wf v = true := by
  simp only [loads] at h
  split at h
  · next v1 r1 heq =>
    split_ifs at h
    have hv1 : v1 = v := by simpa using h
    have hres := (parse_wf_all (s.length + 1)).1 s.data v1 r1 heq
    rwa [hv1] at hres
  · exact absurd h (by simp)

theorem mem_of_find? {α : Type} {p : α → Bool} {l : List α} {x : α}
    (h : l.find? p = some x) : x ∈ l :=
  List.mem_of_find?_eq_some h

theorem dictGet_wf {data : JValue} {k : String} {r : Option JValue}
    (hwf : wf data = true) (h : dictGet data k = some r) :
    ∀ v, r = some v → wf v = true := by
  intro v hv
  subst hv
  cases data with
  | obj kvs =>
    simp only [dictGet, Option.some.injEq] at h
    cases hf : kvs.find? (fun p => p.1 = k) with
    | none => rw [hf] at h; simp at h
    | some q =>
      rw [hf] at h
      have h2 : q.2 = v := by simpa using h
      have hm := mem_of_find? hf
      simp only [wf, Bool.and_eq_true, wfMembers_iff_forall] at hwf
      rw [← h2]
      exact hwf.2 q hm
  | null => rw [show dictGet JValue.null k = none from rfl] at h; exact absurd h (by simp)
  | bool b => rw [show dictGet (JValue.bool b) k = none from rfl] at h
              exact absurd h (by simp)
  | num i => rw [show dictGet (JValue.num i) k = none from rfl] at h
             exact absurd h (by simp)
  | str s => rw [show dictGet (JValue.str s) k = none from rfl] at h
             exact absurd h (by simp)
  | arr xs => rw [show dictGet (JValue.arr xs) k = none from rfl] at h
              exact absurd h (by simp)
  | nonjson n => rw [show dictGet (JValue.nonjson n) k = none from rfl] at h
                 exact absurd h (by simp)

theorem dictGetD_wf {data : JValue} {k : String} {dflt : JValue} {v : JValue}
    (hwf : wf data = true) (hdflt : wf dflt = true)
    (h : dictGetD data k dflt = some v) : wf v = true := by
  simp only [dictGetD] at h
  cases hg : dictGet data k with
  | none => rw [hg] at h; exact absurd h (by simp)
  | some r =>
    rw [hg] at h
    have h2 : r.getD dflt = v := by simpa using h
    cases r with
    | none => simp only [Option.getD_none] at h2; rw [← h2]; exact hdflt
    | some w =>
      simp only [Option.getD_some] at h2
      rw [← h2]
      exact dictGet_wf hwf hg w rfl

/-- The payload the collector builds for a message is itself a serializable
payload whenever the parsed message is one. -/
theorem payloadOfMsg_wf {data p : JValue} (hwf : wf data = true)
    (h : payloadOfMsg data = some p) : wf p = true := by
  simp only [payloadOfMsg] at h
  split at h
  · exact absurd h (by simp)
  · next certData h1 =>
    split at h
    · exact absurd h (by simp)
    · next leafCert h2 =>
      split at h
      · exact absurd h (by simp)
      · next allDomains h3 =>
        split at h
        · next chain source ts h4 h5 h6 =>
          simp only [Option.some.injEq] at h
          have hcd : wf certData = true :=
            dictGetD_wf hwf (show wf (JValue.obj []) = true from rfl) h1
          have hlc : wf leafCert = true :=
            dictGetD_wf hcd (show wf (JValue.obj []) = true from rfl) h2
          have had : wf allDomains = true :=
            dictGetD_wf hlc (show wf (JValue.arr []) = true from rfl) h3
          have hch : wf chain = true :=
            dictGetD_wf hcd (show wf (JValue.arr []) = true from rfl) h4
          have hso : wf source = true :=
            dictGetD_wf hwf (show wf (JValue.obj []) = true from rfl) h5
          have hts : wf ts = true :=
            dictGetD_wf hwf (show wf JValue.null = true from rfl) h6
          rw [← h]
          simp only [wf, wfMembers, noDupKeys, Bool.and_eq_true]
          refine ⟨by simp, had, hlc, hch, hso, hts, trivial⟩
        · exact absurd h (by simp)

/-! ## Store lemmas -/

theorem dumps_of_wf {v : JValue} (h : wf v = true) :
    dumps v = some (String.mk (renderValue v)) := by
  simp [dumps, wf_hasNonjson v h]

theorem renderValue_ne_nil {v : JValue} (h : wf v = true) : renderValue v ≠ [] := by
  have hg := goodHead_renderValue v h
  cases hr : renderValue v with
  | nil => rw [hr] at hg; simp [goodHead] at hg
  | cons c t => simp

theorem find?_filter_ne {α : Type} {l : List (String × α)} {d d' : String}
    (h : d' ≠ d) :
    (l.filter (fun p => ¬ p.1 = d)).find? (fun p => p.1 = d') =
      l.find? (fun p => p.1 = d') := by
  induction l with
  | nil => rfl
  | cons kv rest ih =>
    by_cases h1 : kv.1 = d
    · rw [List.filter_cons_of_neg (by simp [h1])]
      rw [List.find?_cons_of_neg _ (by simp only [decide_eq_true_eq, h1]; exact Ne.symm h)]
      exact ih
    · rw [List.filter_cons_of_pos (by simp [h1])]
      by_cases h2 : kv.1 = d'
      · rw [List.find?_cons_of_pos _ (by simp [h2]),
          List.find?_cons_of_pos _ (by simp [h2])]
      · rw [List.find?_cons_of_neg _ (by simp [h2]),
          List.find?_cons_of_neg _ (by simp [h2])]
        exact ih

theorem sqlLookup_insert_self (db : SQLiteDB) (d j : String) (now : Nat) :
    sqlLookup (sqlInsertOrReplace db d j now) d = some ⟨j, now, now⟩ := by
  simp [sqlLookup, sqlInsertOrReplace, List.find?]

theorem sqlLookup_insert_other (db : SQLiteDB) (d d' j : String) (now : Nat)
    (h : d' ≠ d) :
    sqlLookup (sqlInsertOrReplace db d j now) d' = sqlLookup db d' := by
  simp only [sqlLookup, sqlInsertOrReplace]
  rw [List.find?_cons_of_neg _ (by simp only [decide_eq_true_eq]; exact Ne.symm h)]
  rw [find?_filter_ne h]

theorem kvGet_put_self (kv : RocksKV) (d v : String) :
    kvGet (kvPut kv d v) d = some v := by
  simp [kvGet, kvPut, List.find?]

theorem lookup_applyCalls (now : Nat) (d : String) :
    ∀ (calls : List (String × JValue)) (db : SQLiteDB),
      sqlLookup (applyCalls db calls now) d =
        match lastWrite calls d with
        | some j => some ⟨j, now, now⟩
        | none => sqlLookup db d := by
  intro calls
  induction calls with
  | nil => intro db; rfl
  | cons c rest ih =>
    intro db
    simp only [applyCalls, List.foldl_cons] at *
    rw [ih]
    simp only [lastWrite]
    cases hlw : lastWrite rest d with
    | some j => rfl
    | none =>
      by_cases hcd : c.1 = d
      · simp only [if_pos hcd]
        cases hdump : dumps c.2 with
        | some j =>
          simp only [SQLiteCertificateStore.store_certificate, hdump]
          rw [← hcd, sqlLookup_insert_self]
        | none =>
          simp only [SQLiteCertificateStore.store_certificate, hdump]
      · simp only [if_neg hcd]
        cases hdump : dumps c.2 with
        | some j =>
          simp only [SQLiteCertificateStore.store_certificate, hdump]
          rw [sqlLookup_insert_other db c.1 d j now (Ne.symm hcd)]
        | none =>
          simp only [SQLiteCertificateStore.store_certificate, hdump]

/-! ## Sortedness of the recency listing -/

theorem mem_insertByUpdated {b r : String × SQLRow} :
    ∀ {l : List (String × SQLRow)},
      b ∈ SQLiteCertificateStore.insertByUpdated r l → b = r ∨ b ∈ l := by
  intro l
  induction l with
  | nil => intro h; simpa [SQLiteCertificateStore.insertByUpdated] using h
  | cons x xs ih =>
    intro h
    simp only [SQLiteCertificateStore.insertByUpdated] at h
    split_ifs at h with hc
    · rcases List.mem_cons.mp h with rfl | h2
      · exact Or.inl rfl
      · exact Or.inr h2
    · rcases List.mem_cons.mp h with rfl | h2
      · exact Or.inr (by simp)
      · rcases ih h2 with h3 | h3
        · exact Or.inl h3
        · exact Or.inr (by simp [h3])

theorem pairwise_insertByUpdated (r : String × SQLRow)
    (l : List (String × SQLRow))
    (h : l.Pairwise (fun a b => b.2.updated_at ≤ a.2.updated_at)) :
    (SQLiteCertificateStore.insertByUpdated r l).Pairwise
      (fun a b => b.2.updated_at ≤ a.2.updated_at) := by
  induction l with
  | nil => simp [SQLiteCertificateStore.insertByUpdated]
  | cons x xs ih =>
    simp only [SQLiteCertificateStore.insertByUpdated]
    by_cases hc : x.2.updated_at ≤ r.2.updated_at
    · rw [if_pos hc]
      rw [List.pairwise_cons]
      refine ⟨?_, h⟩
      intro b hb
      rcases List.mem_cons.mp hb with rfl | hb2
      · exact hc
      · have := (List.pairwise_cons.mp h).1 b hb2
        omega
    · rw [if_neg hc]
      rw [List.pairwise_cons] at h ⊢
      refine ⟨?_, ih h.2⟩
      intro b hb
      rcases mem_insertByUpdated hb with rfl | hb2
      · omega
      · exact h.1 b hb2

theorem pairwise_sortByUpdated (l : List (String × SQLRow)) :
    (SQLiteCertificateStore.sortByUpdated l).Pairwise
      (fun a b => b.2.updated_at ≤ a.2.updated_at) := by
  induction l with
  | nil => simp [SQLiteCertificateStore.sortByUpdated]
  | cons x xs ih =>
    simp only [SQLiteCertificateStore.sortByUpdated]
    exact pairwise_insertByUpdated x _ ih

theorem collectUpTo_length : ∀ (l : List (String × String)) (limit : Nat),
    (RocksDBCertificateStore.collectUpTo l limit).length ≤ limit := by
  intro l
  induction l with
  | nil => intro limit; simp [RocksDBCertificateStore.collectUpTo]
  | cons kv rest ih =>
    intro limit
    obtain ⟨k, v⟩ := kv
    simp only [RocksDBCertificateStore.collectUpTo]
    split_ifs with h0
    · simp
    · cases hl : loads v with
      | some j =>
        simp only [List.length_cons]
        have := ih (limit - 1)
        omega
      | none => exact ih limit

/-! ## Claims -/

/-- C1: for every domain and payloads, on either backend, upserting twice
and then reading returns the second payload — the second write fully
replaces the first, with no merging. -/
theorem C1_upsert_last_write_wins :
    ∀ (db : SQLiteDB) (kv : RocksKV) (d : String) (p1 p2 : JValue) (t1 t2 : Nat),
    wf p2 = true →
    SQLiteCertificateStore.get_certificate
      ((SQLiteCertificateStore.store_certificate
        ((SQLiteCertificateStore.store_certificate db d p1 t1).1) d p2 t2).1) d
      = some p2 ∧
    RocksDBCertificateStore.get_certificate
      ((RocksDBCertificateStore.store_certificate
        ((RocksDBCertificateStore.store_certificate (some kv) d p1).1) d p2).1) d
      = some p2 := by
  intro db kv d p1 p2 t1 t2 hp2
  have hd2 := dumps_of_wf hp2
  constructor
  · simp only [SQLiteCertificateStore.store_certificate, hd2]
    simp only [SQLiteCertificateStore.get_certificate, sqlLookup_insert_self]
    exact loads_renderValue p2 hp2
  · have hne : String.mk (renderValue p2) ≠ "" := by
      intro he
      exact renderValue_ne_nil hp2 (congrArg String.data he)
    cases hd1 : dumps p1 with
    | none =>
      simp only [RocksDBCertificateStore.store_certificate, hd1, hd2]
      simp only [RocksDBCertificateStore.get_certificate, kvGet_put_self,
        if_neg hne]
      exact loads_renderValue p2 hp2
    | some j1 =>
      simp only [RocksDBCertificateStore.store_certificate, hd1, hd2]
      simp only [RocksDBCertificateStore.get_certificate, kvGet_put_self,
        if_neg hne]
      exact loads_renderValue p2 hp2

theorem C1_witness :
    wf (JValue.obj [("k", JValue.num 1)]) = true ∧
    SQLiteCertificateStore.get_certificate
      ((SQLiteCertificateStore.store_certificate
        ((SQLiteCertificateStore.store_certificate [] "example.com"
          (JValue.str "old") 0).1) "example.com"
        (JValue.obj [("k", JValue.num 1)]) 1).1) "example.com"
      = some (JValue.obj [("k", JValue.num 1)]) ∧
    RocksDBCertificateStore.get_certificate
      ((RocksDBCertificateStore.store_certificate
        ((RocksDBCertificateStore.store_certificate (some []) "example.com"
          (JValue.str "old")).1) "example.com"
        (JValue.obj [("k", JValue.num 1)])).1) "example.com"
      = some (JValue.obj [("k", JValue.num 1)]) := by
  refine ⟨by decide, ?_, ?_⟩
  · exact (C1_upsert_last_write_wins [] [] "example.com" (JValue.str "old")
      (JValue.obj [("k", JValue.num 1)]) 0 1 (by decide)).1
  · exact (C1_upsert_last_write_wins [] [] "example.com" (JValue.str "old")
      (JValue.obj [("k", JValue.num 1)]) 0 1 (by decide)).2

/-- C2: the claim says `created_at` is set once at the first upsert and
kept by later upserts; the code's `INSERT OR REPLACE` deletes the old row
and re-inserts, so the `created_at` column default fires again on every
upsert.  Evaluated at the failing input: the first write at time 0 sets
`created_at = 0`, the second write at time 1 resets it to 1. -/
theorem C2_created_at_reset_by_replace :
    (sqlLookup ((SQLiteCertificateStore.store_certificate []
        "a.example" (JValue.obj []) 0).1) "a.example").map SQLRow.created_at
      = some 0 ∧
    (sqlLookup ((SQLiteCertificateStore.store_certificate
        ((SQLiteCertificateStore.store_certificate []
          "a.example" (JValue.obj []) 0).1)
        "a.example" (JValue.obj []) 1).1) "a.example").map SQLRow.created_at
      = some 1 := by
  exact ⟨rfl, rfl⟩

/-- C5: the record codec round-trips: decoding the encoded byte
representation of any representable payload, nested mappings and empty
sequences included, yields the payload exactly. -/
theorem C5_codec_roundtrip :
    ∀ v : JValue, wf v = true → (dumps v).bind loads = some v :=
  dumps_bind_loads

theorem C5_witness :
    wf (JValue.obj [("a", JValue.arr []),
      ("b", JValue.obj [("c", JValue.num (-5)), ("d", JValue.str "x\ny")]),
      ("e", JValue.null), ("f", JValue.bool true)]) = true ∧
    (dumps (JValue.obj [("a", JValue.arr []),
      ("b", JValue.obj [("c", JValue.num (-5)), ("d", JValue.str "x\ny")]),
      ("e", JValue.null), ("f", JValue.bool true)])).bind loads
      = some (JValue.obj [("a", JValue.arr []),
        ("b", JValue.obj [("c", JValue.num (-5)), ("d", JValue.str "x\ny")]),
        ("e", JValue.null), ("f", JValue.bool true)]) :=
  ⟨by decide, C5_codec_roundtrip _ (by decide)⟩

/-- C6: the bounded listing returns at most N records on both backends,
and on the relational backend the records come in non-increasing
`updated_at` order. -/
theorem C6_list_limit_and_order :
    ∀ (db : SQLiteDB) (kv : Option RocksKV) (N : Nat),
    (SQLiteCertificateStore.get_all_certificates db N).length ≤ N ∧
    (SQLiteCertificateStore.get_all_certificates db N).Pairwise
      (fun a b => b.updated_at ≤ a.updated_at) ∧
    (RocksDBCertificateStore.get_all_certificates kv N).length ≤ N := by
  intro db kv N
  refine ⟨?_, ?_, ?_⟩
  · simp only [SQLiteCertificateStore.get_all_certificates]
    split_ifs
    · calc (List.filterMap _ _).length
          ≤ ((SQLiteCertificateStore.sortByUpdated db).take N).length :=
            List.length_filterMap_le _ _
        _ ≤ N := List.length_take_le _ _
    · simp
  · simp only [SQLiteCertificateStore.get_all_certificates]
    split_ifs
    · rw [List.pairwise_filterMap]
      have hs : ((SQLiteCertificateStore.sortByUpdated db).take N).Pairwise
          (fun a b => b.2.updated_at ≤ a.2.updated_at) :=
        List.Pairwise.sublist (List.take_sublist _ _) (pairwise_sortByUpdated db)
      refine hs.imp ?_
      intro a b hab x hx y hy
      simp only [Option.mem_def, Option.map_eq_some'] at hx hy
      obtain ⟨va, _, rfl⟩ := hx
      obtain ⟨vb, _, rfl⟩ := hy
      exact hab
    · simp
  · cases kv with
    | none => simp [RocksDBCertificateStore.get_all_certificates]
    | some l =>
      simp only [RocksDBCertificateStore.get_all_certificates]
      exact collectUpTo_length _ N

/-- C7: upsert on either backend is total and returns a boolean; a payload
whose serialization fails leaves the state unchanged and returns false,
and a serializable payload returns true; an uninitialized key-value handle
also returns false without writing. -/
theorem C7_upsert_never_raises :
    ∀ (db : SQLiteDB) (kv : RocksKV) (d : String) (p : JValue) (t : Nat),
    (hasNonjson p = true →
      SQLiteCertificateStore.store_certificate db d p t = (db, false) ∧
      RocksDBCertificateStore.store_certificate (some kv) d p = (some kv, false)) ∧
    (hasNonjson p = false →
      (SQLiteCertificateStore.store_certificate db d p t).2 = true ∧
      (RocksDBCertificateStore.store_certificate (some kv) d p).2 = true) ∧
    RocksDBCertificateStore.store_certificate none d p = (none, false) := by
  intro db kv d p t
  refine ⟨?_, ?_, rfl⟩
  · intro h
    constructor
    · simp [SQLiteCertificateStore.store_certificate, dumps, h]
    · simp [RocksDBCertificateStore.store_certificate, dumps, h]
  · intro h
    constructor
    · simp [SQLiteCertificateStore.store_certificate, dumps, h]
    · simp [RocksDBCertificateStore.store_certificate, dumps, h]

theorem C7_witness :
    hasNonjson (JValue.obj [("x", JValue.nonjson 0)]) = true ∧
    SQLiteCertificateStore.store_certificate [] "d.example"
      (JValue.obj [("x", JValue.nonjson 0)]) 3 = ([], false) ∧
    RocksDBCertificateStore.store_certificate (some []) "d.example"
      (JValue.obj [("x", JValue.nonjson 0)]) = (some [], false) := by
  refine ⟨by decide, ?_, ?_⟩
  · exact ((C7_upsert_never_raises [] [] "d.example"
      (JValue.obj [("x", JValue.nonjson 0)]) 3).1 (by decide)).1
  · exact ((C7_upsert_never_raises [] [] "d.example"
      (JValue.obj [("x", JValue.nonjson 0)]) 3).1 (by decide)).2

/-- C8: a frame that is not valid JSON is skipped by the receive loop with
no storage call and no counter increment, and it does not stop the
processing of the other frames: processing any frame sequence containing
it equals processing the sequence with it removed. -/
theorem C8_invalid_frame_skipped :
    ∀ (now : Nat) (xs ys : List String) (bad : String) (sc : SQLiteDB × Nat),
    loads bad = none →
    processFrames now (xs ++ bad :: ys) sc = processFrames now (xs ++ ys) sc := by
  intro now xs ys bad sc hbad
  have hstep : ∀ x : SQLiteDB × Nat, stepFrame x bad now = x := by
    intro x
    simp [stepFrame, hbad]
  simp only [processFrames, List.foldl_append, List.foldl_cons, hstep]

theorem C8_witness :
    loads "certstream ca" = none ∧
    processFrames 5 ([cmsg] ++ "certstream ca" :: [cmsg]) ([], 0) =
      processFrames 5 ([cmsg] ++ [cmsg]) ([], 0) :=
  ⟨by decide, C8_invalid_frame_skipped 5 [cmsg] [cmsg] "certstream ca" ([], 0)
    (by decide)⟩

/-- C10: point lookup returns the absent value both when no record exists
and when the lookup's stored bytes fail to decode (or, on the key-value
backend, when the handle is uninitialized or the stored value is falsy);
the interface reports all of these identically as `none`. -/
theorem C10_get_none_on_missing_or_undecodable :
    ∀ (db : SQLiteDB) (kv : RocksKV) (d : String),
    (sqlLookup db d = none → SQLiteCertificateStore.get_certificate db d = none) ∧
    (∀ row, sqlLookup db d = some row → loads row.data_json = none →
      SQLiteCertificateStore.get_certificate db d = none) ∧
    (kvGet kv d = none → RocksDBCertificateStore.get_certificate (some kv) d = none) ∧
    (∀ v, kvGet kv d = some v → loads v = none →
      RocksDBCertificateStore.get_certificate (some kv) d = none) ∧
    RocksDBCertificateStore.get_certificate none d = none := by
  intro db kv d
  refine ⟨?_, ?_, ?_, ?_, rfl⟩
  · intro h
    simp [SQLiteCertificateStore.get_certificate, h]
  · intro row h1 h2
    simp [SQLiteCertificateStore.get_certificate, h1, h2]
  · intro h
    simp [RocksDBCertificateStore.get_certificate, h]
  · intro v h1 h2
    simp only [RocksDBCertificateStore.get_certificate, h1]
    split_ifs <;> simp [h2]

theorem C10_witness :
    sqlLookup [("d.example", ⟨"certstream ca", 0, 0⟩)] "other" = none ∧
    SQLiteCertificateStore.get_certificate
      [("d.example", ⟨"certstream ca", 0, 0⟩)] "other" = none ∧
    sqlLookup [("d.example", ⟨"certstream ca", 0, 0⟩)] "d.example" =
      some ⟨"certstream ca", 0, 0⟩ ∧
    loads "certstream ca" = none ∧
    SQLiteCertificateStore.get_certificate
      [("d.example", ⟨"certstream ca", 0, 0⟩)] "d.example" = none ∧
    RocksDBCertificateStore.get_certificate
      (some [("d.example", "certstream ca")]) "d.example" = none := by
  refine ⟨by decide, ?_, by decide, by decide, ?_, ?_⟩
  · exact (C10_get_none_on_missing_or_undecodable
      [("d.example", ⟨"certstream ca", 0, 0⟩)] [] "other").1 (by decide)
  · exact ((C10_get_none_on_missing_or_undecodable
      [("d.example", ⟨"certstream ca", 0, 0⟩)] [] "d.example").2.1
      ⟨"certstream ca", 0, 0⟩ (by decide) (by decide))
  · exact ((C10_get_none_on_missing_or_undecodable
      [] [("d.example", "certstream ca")] "d.example").2.2.2.1
      "certstream ca" (by decide) (by decide))

/-! ## Pipeline helpers for the remaining claims -/

theorem dictGet_some_obj {v : JValue} {k : String} {r : Option JValue}
    (h : dictGet v k = some r) : ∃ kvs, v = JValue.obj kvs := by
  cases v with
  | obj kvs => exact ⟨kvs, rfl⟩
  | null => rw [show dictGet JValue.null k = none from rfl] at h; exact absurd h (by simp)
  | bool b => rw [show dictGet (JValue.bool b) k = none from rfl] at h
              exact absurd h (by simp)
  | num i => rw [show dictGet (JValue.num i) k = none from rfl] at h
             exact absurd h (by simp)
  | str s => rw [show dictGet (JValue.str s) k = none from rfl] at h
             exact absurd h (by simp)
  | arr xs => rw [show dictGet (JValue.arr xs) k = none from rfl] at h
              exact absurd h (by simp)
  | nonjson n => rw [show dictGet (JValue.nonjson n) k = none from rfl] at h
                 exact absurd h (by simp)

theorem dictGetD_some_obj {v : JValue} {k : String} {dflt w : JValue}
    (h : dictGetD v k dflt = some w) : ∃ kvs, v = JValue.obj kvs := by
  simp only [dictGetD] at h
  cases hg : dictGet v k with
  | none => rw [hg] at h; exact absurd h (by simp)
  | some r => exact dictGet_some_obj hg

theorem dictGetD_obj_some (kvs : List (String × JValue)) (k : String)
    (dflt : JValue) : ∃ w, dictGetD (JValue.obj kvs) k dflt = some w := by
  refine ⟨((kvs.find? (fun p => p.1 = k)).map (fun p => p.2)).getD dflt, ?_⟩
  simp [dictGetD, dictGet]

theorem payloadOfMsg_of_domains {data : JValue} {ds : List String}
    (h : domainsOfMsg data = some ds) : ∃ p, payloadOfMsg data = some p := by
  simp only [domainsOfMsg] at h
  split at h
  · exact absurd h (by simp)
  · next certData h1 =>
    split at h
    · exact absurd h (by simp)
    · next leafCert h2 =>
      split at h
      · exact absurd h (by simp)
      · next allDomains h3 =>
        obtain ⟨kvsC, rfl⟩ := dictGetD_some_obj h2
        obtain ⟨kvsD, hdata⟩ := dictGetD_some_obj h1
        obtain ⟨chain, hchain⟩ := dictGetD_obj_some kvsC "chain" (.arr [])
        obtain ⟨source, hsource⟩ :=
          dictGetD_obj_some kvsD "source" (.obj [])
        obtain ⟨ts, hts⟩ := dictGetD_obj_some kvsD "timestamp" .null
        subst hdata
        refine ⟨JValue.obj [("domains", allDomains), ("leaf_cert", leafCert),
          ("chain", chain), ("source", source), ("timestamp", ts)], ?_⟩
        simp only [payloadOfMsg, h1, h2, h3, hchain, hsource, hts]

theorem lastWrite_map_const_shape (p : JValue) (j : String) (d : String)
    (hj : dumps p = some j) :
    ∀ ds : List String,
      lastWrite (ds.map (fun x => (x, p))) d = none ∨
      lastWrite (ds.map (fun x => (x, p))) d = some j := by
  intro ds
  induction ds with
  | nil => exact Or.inl rfl
  | cons a rest ih =>
    simp only [List.map_cons, lastWrite]
    rcases ih with hn | hs
    · rw [hn]
      by_cases had : a = d
      · rw [if_pos had, hj]
        exact Or.inr rfl
      · rw [if_neg had]
        exact Or.inl rfl
    · rw [hs]
      exact Or.inr rfl

theorem lastWrite_map_const_mem (p : JValue) (j : String) (d : String)
    (hj : dumps p = some j) :
    ∀ ds : List String, d ∈ ds →
      lastWrite (ds.map (fun x => (x, p))) d = some j := by
  intro ds
  induction ds with
  | nil => intro h; simp at h
  | cons a rest ih =>
    intro hd
    simp only [List.map_cons, lastWrite]
    rcases List.mem_cons.mp hd with rfl | hmem
    · rcases lastWrite_map_const_shape p j d hj rest with hn | hs
      · rw [hn, if_pos rfl, hj]
      · rw [hs]
    · rw [ih hmem]

/-- C3: re-delivery of the same `certificate_update` message is not
idempotent for the entire stored state on the relational backend: applying
the concrete scenario message to the empty store at clock 0 and re-applying
it at clock 1 yields a different store than applying it once, because the
replacement write refreshes both row timestamps. -/
theorem C3_counterexample_timestamps_change :
    (stepFrame (stepFrame ([], 0) cmsg 0) cmsg 1).1 ≠ (stepFrame ([], 0) cmsg 0).1 := by
  decide

/-- C3 (amended): re-applying the same message is idempotent up to row
timestamps: the retrieved payload of every domain is identical after one
and after two deliveries, and when the re-delivery carries the same write
timestamp the stored table is identical as a map from domain to row. -/
theorem C3_amended_idempotent_up_to_timestamps :
    ∀ (db : SQLiteDB) (data : JValue) (t1 t2 : Nat) (d : String),
    SQLiteCertificateStore.get_certificate
        (applyParsed (applyParsed db data t1) data t2) d =
      SQLiteCertificateStore.get_certificate (applyParsed db data t1) d ∧
    sqlLookup (applyParsed (applyParsed db data t1) data t1) d =
      sqlLookup (applyParsed db data t1) d := by
  intro db data t1 t2 d
  have hcase : (∀ (s : SQLiteDB) (now : Nat), applyParsed s data now = s) ∨
      (∃ calls, ∀ (s : SQLiteDB) (now : Nat),
        applyParsed s data now = applyCalls s calls now) := by
    cases hmt : dictGet data "message_type" with
    | none =>
      refine Or.inl fun s now => ?_
      simp [applyParsed, handleParsed, hmt]
    | some mt =>
      by_cases hc : mt = some (JValue.str "certificate_update")
      · cases hcalls : certUpdateCalls data with
        | none =>
          refine Or.inl fun s now => ?_
          simp [applyParsed, handleParsed, hmt, hc, hcalls]
        | some calls =>
          refine Or.inr ⟨calls, fun s now => ?_⟩
          simp [applyParsed, handleParsed, hmt, hc, hcalls]
      · refine Or.inl fun s now => ?_
        simp [applyParsed, handleParsed, hmt, hc]
  rcases hcase with hid | ⟨calls, happ⟩
  · simp [hid]
  · constructor
    · simp only [happ]
      simp only [SQLiteCertificateStore.get_certificate]
      rw [lookup_applyCalls t2 d calls]
      cases hlw : lastWrite calls d with
      | some j =>
        rw [lookup_applyCalls t1 d calls db, hlw]
      | none =>
        rfl
    · simp only [happ]
      rw [lookup_applyCalls t1 d calls (applyCalls db calls t1)]
      cases hlw : lastWrite calls d with
      | some j =>
        rw [lookup_applyCalls t1 d calls db, hlw]
      | none =>
        rfl

/-- C4: a `certificate_update` message whose leaf certificate names the
domains [a, b, c] produces exactly three upsert calls, one per domain and
all with the identical payload; and processing the concrete scenario
message leaves both its domains mapped to a record whose domain list is the
message's full domain list. -/
theorem C4_one_upsert_per_domain :
    (∀ (data : JValue) (a b c : String),
      domainsOfMsg data = some [a, b, c] →
      ∃ p, payloadOfMsg data = some p ∧
        certUpdateCalls data = some [(a, p), (b, p), (c, p)]) ∧
    (SQLiteCertificateStore.get_certificate (stepFrame ([], 0) cmsg 0).1
        "a.example" = some cpayload ∧
      SQLiteCertificateStore.get_certificate (stepFrame ([], 0) cmsg 0).1
        "b.example" = some cpayload ∧
      dictGetD cpayload "domains" .null =
        some (.arr [.str "a.example", .str "b.example"])) := by
  constructor
  · intro data a b c hdom
    obtain ⟨p, hpay⟩ := payloadOfMsg_of_domains hdom
    refine ⟨p, hpay, ?_⟩
    simp [certUpdateCalls, hdom, hpay]
  · refine ⟨by decide, by decide, by decide⟩

theorem C4_witness :
    domainsOfMsg (JValue.obj [("data", JValue.obj [("leaf_cert",
        JValue.obj [("all_domains", JValue.arr [JValue.str "a",
          JValue.str "b", JValue.str "c"])])])])
      = some ["a", "b", "c"] ∧
    ∃ p, payloadOfMsg (JValue.obj [("data", JValue.obj [("leaf_cert",
        JValue.obj [("all_domains", JValue.arr [JValue.str "a",
          JValue.str "b", JValue.str "c"])])])]) = some p ∧
      certUpdateCalls (JValue.obj [("data", JValue.obj [("leaf_cert",
        JValue.obj [("all_domains", JValue.arr [JValue.str "a",
          JValue.str "b", JValue.str "c"])])])])
        = some [("a", p), ("b", p), ("c", p)] :=
  ⟨by decide, C4_one_upsert_per_domain.1 _ "a" "b" "c" (by decide)⟩

/-- C9: the domains of one message are processed sequentially in input
order — the upsert call sequence is the domain list in order, each with the
message's payload — and a repeated domain cannot crash the loop: whichever
occurrence is taken as the last, the stored record for that domain is the
message's payload. -/
theorem C9_domains_in_order_duplicates_safe :
    ∀ (frame : String) (data : JValue) (ds : List String) (p : JValue),
    loads frame = some data → domainsOfMsg data = some ds →
    payloadOfMsg data = some p →
    certUpdateCalls data = some (ds.map (fun d => (d, p))) ∧
    ∀ (db : SQLiteDB) (t : Nat) (d : String), d ∈ ds →
      SQLiteCertificateStore.get_certificate
        (applyCalls db (ds.map (fun x => (x, p))) t) d = some p := by
  intro frame data ds p hframe hdom hpay
  have hwfdata : wf data = true := loads_wf hframe
  have hwfp : wf p = true := payloadOfMsg_wf hwfdata hpay
  have hdump := dumps_of_wf hwfp
  constructor
  · simp [certUpdateCalls, hdom, hpay]
  · intro db t d hd
    simp only [SQLiteCertificateStore.get_certificate]
    rw [lookup_applyCalls t d]
    rw [lastWrite_map_const_mem p (String.mk (renderValue p)) d hdump ds hd]
    exact loads_renderValue p hwfp

theorem C9_witness :
    loads cmsg = some ((loads cmsg).getD JValue.null) ∧
    domainsOfMsg ((loads cmsg).getD JValue.null) =
      some ["a.example", "b.example"] ∧
    payloadOfMsg ((loads cmsg).getD JValue.null) = some cpayload ∧
    certUpdateCalls ((loads cmsg).getD JValue.null) =
      some (["a.example", "b.example"].map (fun d => (d, cpayload))) ∧
    SQLiteCertificateStore.get_certificate
      (applyCalls [] (["a.example", "b.example"].map (fun x => (x, cpayload))) 4)
      "b.example" = some cpayload := by
  refine ⟨by decide, by decide, by decide, ?_, ?_⟩
  · exact (C9_domains_in_order_duplicates_safe cmsg ((loads cmsg).getD JValue.null)
      ["a.example", "b.example"] cpayload (by decide) (by decide) (by decide)).1
  · exact (C9_domains_in_order_duplicates_safe cmsg ((loads cmsg).getD JValue.null)
      ["a.example", "b.example"] cpayload (by decide) (by decide) (by decide)).2
      [] 4 "b.example" (by decide)

end Certstream